import Mathlib

/-!
Verification development for the hybrid retrieval-augmented QA pipeline.

Shallow embedding conventions:
* Python floats are modelled as rationals (ℚ); numeric literals such as
  0.1, 0.4, 0.01 become exact rationals.
* Fallible collaborator calls (the `float` parser, `json.loads`, the
  language model, the cross-encoder) are modelled as `Option`/`Except`
  valued oracle parameters: `none`/`.error` stands for a raised exception
  (or an unparsable reply), which the embedded control flow handles the
  way the corresponding `try/except` does.
* Python `list.sort` (Timsort) is a stable sort; it is modelled by a
  stable insertion sort with the same ordering key, which produces the
  identical output list.
* Python dicts are modelled as insertion-ordered association lists:
  assignment updates the first matching key in place, otherwise appends.
-/

/-! ### Generic string and list helpers -/

/-- Whether the list `needle` occurs at the start of `hay` (character lists). -/
def listStarts : List Char → List Char → Bool
  | [], _ => true
  | _ :: _, [] => false
  | a :: as, b :: bs => a == b && listStarts as bs

/-- Whether `needle` occurs contiguously anywhere inside `hay`
(the semantics of Python's `needle in hay` on strings). -/
def listHasSub (needle : List Char) : List Char → Bool
  | [] => needle.isEmpty
  | b :: bs => listStarts needle (b :: bs) || listHasSub needle bs

/-- Python `needle in hay` for strings (substring containment). -/
def strHasSub (hay needle : String) : Bool :=
  listHasSub needle.data hay.data

/-!
The embedding uses its own character-list implementations of the string
primitives (lower-casing, slicing, trimming, splitting, replacing,
decimal rendering) instead of the core `String` functions, so that every
definition evaluates by kernel reduction on concrete inputs.  Each one
has the semantics of the corresponding Python string operation
(lower-casing is ASCII, as in the data these functions receive). -/

/-- Python `s.lower()`. -/
def strLower (s : String) : String :=
  String.mk (s.data.map Char.toLower)

/-- Python `s[:n]`. -/
def strTake (s : String) (n : ℕ) : String :=
  String.mk (s.data.take n)

/-- Python `s[n:]`. -/
def strDrop (s : String) (n : ℕ) : String :=
  String.mk (s.data.drop n)

/-- Drop the last `n` characters (`s[:-n]` on a long-enough string). -/
def strDropRight (s : String) (n : ℕ) : String :=
  String.mk (s.data.take (s.data.length - n))

/-- Python `s.startswith(p)`. -/
def strStarts (s p : String) : Bool :=
  listStarts p.data s.data

/-- Python `s.endswith(p)`. -/
def strEnds (s p : String) : Bool :=
  listStarts p.data.reverse s.data.reverse

/-- Python `s.strip()`. -/
def strTrim (s : String) : String :=
  String.mk
    (((s.data.dropWhile Char.isWhitespace).reverse.dropWhile Char.isWhitespace).reverse)

/-- Split a character list at every occurrence of `c` (Python
`s.split(c)` for a one-character separator: empty pieces are kept). -/
def listSplitChar (c : Char) : List Char → List (List Char)
  | [] => [[]]
  | x :: xs =>
      if x = c then [] :: listSplitChar c xs
      else
        match listSplitChar c xs with
        | g :: gs => (x :: g) :: gs
        | [] => [[x]]

/-- Python `s.split(c)` for a one-character separator. -/
def strSplitChar (c : Char) (s : String) : List String :=
  (listSplitChar c s.data).map String.mk

/-- Split a character list at every character satisfying `p`. -/
def listSplitPred (p : Char → Bool) : List Char → List (List Char)
  | [] => [[]]
  | x :: xs =>
      if p x then [] :: listSplitPred p xs
      else
        match listSplitPred p xs with
        | g :: gs => (x :: g) :: gs
        | [] => [[x]]

/-- Python `str.split()` with no argument: split on whitespace runs,
discarding empty pieces. -/
def splitWS (s : String) : List String :=
  ((listSplitPred Char.isWhitespace s.data).map String.mk).filter (fun t => t ≠ "")

/-- One pass of Python `s.replace(pat, rep)`: left-to-right,
non-overlapping; `fuel` bounds the recursion (the scanned list shrinks
at every step, so `length + 1` suffices). -/
def replaceAux (pat rep : List Char) : ℕ → List Char → List Char
  | 0, l => l
  | _ + 1, [] => []
  | fuel + 1, x :: xs =>
      if listStarts pat (x :: xs) ∧ pat ≠ [] then
        rep ++ replaceAux pat rep fuel ((x :: xs).drop pat.length)
      else x :: replaceAux pat rep fuel xs

/-- Python `s.replace(pat, rep)` (for a non-empty pattern). -/
def strReplace (s pat rep : String) : String :=
  String.mk (replaceAux pat.data rep.data (s.data.length + 1) s.data)

/-- Python `"".join(l)` / `+` accumulation of string chunks. -/
def strConcat (l : List String) : String :=
  String.mk ((l.map String.data).flatten)

/-- Python `sep.join(l)`. -/
def strIntercalate (sep : String) (l : List String) : String :=
  String.mk (((l.map String.data).intersperse sep.data).flatten)

/-- The decimal digit character of `d < 10`. -/
def digitChar (d : ℕ) : Char :=
  Char.ofNat (48 + d)

/-- Decimal digits of `n`, most significant first (`fuel`-bounded
division loop; `n + 1` fuel suffices). -/
def natDigitsAux : ℕ → ℕ → List Char
  | 0, _ => []
  | fuel + 1, n =>
      if n < 10 then [digitChar n]
      else natDigitsAux fuel (n / 10) ++ [digitChar (n % 10)]

/-- Python `str(n)` for a natural number. -/
def natToStr (n : ℕ) : String :=
  String.mk (natDigitsAux (n + 1) n)

/-- Python `str(n)` for an integer. -/
def intToStr : ℤ → String
  | Int.ofNat n => natToStr n
  | Int.negSucc n => "-" ++ natToStr (n + 1)

/-- Stable insertion of `x` into `l`, where `pre x y = true` means the
(originally earlier) `x` may stay in front of `y`. -/
def insStable (pre : α → α → Bool) (x : α) : List α → List α
  | [] => [x]
  | y :: ys => if pre x y then x :: y :: ys else y :: insStable pre x ys

/-- Stable sort: the unique stable order where `x` precedes a later `y`
iff `pre x y`; models Python's stable `list.sort`. -/
def sortStable (pre : α → α → Bool) : List α → List α
  | [] => []
  | x :: xs => insStable pre x (sortStable pre xs)

/-- Python `list.sort(key=…, reverse=True)`: stable descending sort by a
rational key. -/
def sortDescBy (key : α → ℚ) (l : List α) : List α :=
  sortStable (fun a b => decide (key b ≤ key a)) l

/-- Python dict assignment `d[k] = v` on an insertion-ordered
association list: replace the first binding of `k`, else append. -/
def dictSet [BEq α] : List (α × β) → α → β → List (α × β)
  | [], k, v => [(k, v)]
  | (k', v') :: rest, k, v =>
      if k' == k then (k', v) :: rest else (k', v') :: dictSet rest k v

/-- Python dict lookup `d.get(k)` on an association list. -/
def dictGet [BEq α] (l : List (α × β)) (k : α) : Option β :=
  (l.find? (fun p => p.1 == k)).map (fun p => p.2)

/-! ### Keyword scoring (`HybridSearchService._calculate_keyword_score`) -/

/-- The fields of a `MarkdownDoc` row used by keyword scoring:
`title` is non-nullable, `summary` may be `None`. -/
structure MDoc where
  title : String
  summary : Option String
  content : String
deriving DecidableEq

/-- `_calculate_keyword_score`: for each whitespace keyword of the
lower-cased query with length ≥ 2, add 3 if it occurs in the title,
2 if it occurs in the (truthy) summary, and 1 if it occurs in
`text_lower`, the concatenation `title + " " + (summary or "") + " " +
content[:500]`, all lower-cased. -/
def calculateKeywordScore (query : String) (doc : MDoc) : ℚ :=
  let queryLower := strLower query
  let textLower :=
    strLower (doc.title ++ " " ++ (doc.summary.getD "") ++ " " ++ strTake doc.content 500)
  let keywords := splitWS queryLower
  keywords.foldl
    (fun score kw =>
      if kw.data.length < 2 then score
      else
        let s1 := if strHasSub (strLower doc.title) kw then score + 3 else score
        let s2 :=
          if (match doc.summary with
              | some s => decide (s ≠ "") && strHasSub (strLower s) kw
              | none => false) then s1 + 2 else s1
        if strHasSub textLower kw then s2 + 1 else s2)
    0

/-- The score formula as the claim states it: the content term tests the
content prefix `content[:500]` alone, not the concatenated text. -/
def keywordScoreClaim (query : String) (doc : MDoc) : ℚ :=
  (splitWS (strLower query)).foldl
    (fun score kw =>
      if kw.data.length < 2 then score
      else
        score + (if strHasSub (strLower doc.title) kw then 3 else 0)
          + (if (match doc.summary with
                 | some s => decide (s ≠ "") && strHasSub (strLower s) kw
                 | none => false) then 2 else 0)
          + (if strHasSub (strLower (strTake doc.content 500)) kw then 1 else 0))
    0

/-- The amended score formula: identical to the claim except that the
`+1` term tests the concatenation of title, summary and the 500-character
content prefix (so a title or summary hit also earns the `+1`). -/
def keywordScoreAmended (query : String) (doc : MDoc) : ℚ :=
  let textLower :=
    strLower (doc.title ++ " " ++ (doc.summary.getD "") ++ " " ++ strTake doc.content 500)
  (splitWS (strLower query)).foldl
    (fun score kw =>
      if kw.data.length < 2 then score
      else
        score + (if strHasSub (strLower doc.title) kw then 3 else 0)
          + (if (match doc.summary with
                 | some s => decide (s ≠ "") && strHasSub (strLower s) kw
                 | none => false) then 2 else 0)
          + (if strHasSub textLower kw then 1 else 0))
    0

/-! ### Hybrid fusion (`HybridSearchService.hybrid_search`)

The vector path input is the list returned by
`retrieve_with_metadata`, whose `index` field is the 1-based enumerate
position; `hybrid_search` reads that field back, which is why the model
indexes the vector results from 1. -/

/-- One vector-path result (`retrieve_with_metadata` entry); `content`
stands for the remaining payload fields. -/
structure VRes where
  docId : Option ℕ
  score : Option ℚ
  content : String
deriving DecidableEq

/-- One keyword-path result (`keyword_search` entry); `kindex` is its
`index` field, `score` its raw keyword score. -/
structure KRes where
  kindex : ℕ
  docId : Option ℕ
  score : ℚ
  content : String
deriving DecidableEq

/-- Python truthiness of `result.get("doc_id")`: `None` and `0` are
falsy, any other id passes. -/
def truthyId : Option ℕ → Option ℕ
  | some d => if d = 0 then none else some d
  | none => none

/-- The vector-path rank heuristic `1.0 - (index - 1) * 0.1`. -/
def vecRankScore (rank : ℕ) : ℚ :=
  1 - ((rank : ℚ) - 1) * (1 / 10)

/-- The per-document value of the `doc_scores` dict: vector score,
keyword score, and the stored `doc_info` payload (a vector result with
its 1-based rank, or a keyword result). -/
structure ScoreEntry where
  vScore : ℚ
  kScore : ℚ
  info : Sum (ℕ × VRes) KRes
deriving DecidableEq

/-- First loop of the fusion: walk the vector results (with their
1-based `index`), and for each truthy `doc_id` assign
`doc_scores[doc_id] = {vector_score, keyword_score: 0, doc_info}`. -/
def procVec : ℕ → List VRes → List (ℕ × ScoreEntry) → List (ℕ × ScoreEntry)
  | _, [], acc => acc
  | i, v :: vs, acc =>
      match truthyId v.docId with
      | some d => procVec (i + 1) vs (dictSet acc d ⟨vecRankScore i, 0, Sum.inl (i, v)⟩)
      | none => procVec (i + 1) vs acc

/-- Second loop: walk the keyword results; a truthy `doc_id` already in
`doc_scores` only gets its `keyword_score` field set to `score / 10`,
otherwise a fresh entry with `vector_score = 0` is appended. -/
def procKw : List KRes → List (ℕ × ScoreEntry) → List (ℕ × ScoreEntry)
  | [], acc => acc
  | r :: rs, acc =>
      match truthyId r.docId with
      | some d =>
          match dictGet acc d with
          | some e => procKw rs (dictSet acc d { e with kScore := r.score / 10 })
          | none => procKw rs (dictSet acc d ⟨0, r.score / 10, Sum.inr r⟩)
      | none => procKw rs acc

/-- One fused output entry: the `doc_info` dict with its key, the added
`hybrid_score` field, and the (re-assigned) `index` field. -/
structure FEntry where
  docId : ℕ
  info : Sum (ℕ × VRes) KRes
  hybridScore : ℚ
  index : ℕ
deriving DecidableEq

/-- The `index` field carried by a stored `doc_info` before
re-indexing. -/
def infoIndex : Sum (ℕ × VRes) KRes → ℕ
  | Sum.inl (r, _) => r
  | Sum.inr kr => kr.kindex

/-- The raw `doc_id` field of a stored `doc_info`. -/
def infoDocId : Sum (ℕ × VRes) KRes → Option ℕ
  | Sum.inl (_, v) => v.docId
  | Sum.inr kr => kr.docId

/-- The final re-indexing loop `for i, result in enumerate(hybrid_results[:k], start=1)`. -/
def reindexFrom (i : ℕ) : List FEntry → List FEntry
  | [] => []
  | e :: es => { e with index := i } :: reindexFrom (i + 1) es

/-- `hybrid_search` (fusion part): build `doc_scores` from the two
result lists, compute `hybrid_score = vector_score * vector_weight +
keyword_score * keyword_weight`, sort descending by it (stably),
truncate to `k` and re-index from 1. -/
def hybridSearch (vres : List VRes) (kres : List KRes) (k : ℕ)
    (keywordWeight vectorWeight : ℚ) : List FEntry :=
  let ds := procKw kres (procVec 1 vres [])
  let hybrid := ds.map (fun p =>
    ⟨p.1, p.2.info, p.2.vScore * vectorWeight + p.2.kScore * keywordWeight,
      infoIndex p.2.info⟩)
  reindexFrom 1 ((sortDescBy (fun e => e.hybridScore) hybrid).take k)

/-! Spec-side functions for the fusion claim, written from the claim's
words so that the code model above can be compared against them. -/

/-- The 1-based rank of the first vector result carrying (truthy)
document id `d`, counting from `i`. -/
def vecRankFrom (d : ℕ) : ℕ → List VRes → Option ℕ
  | _, [] => none
  | i, v :: vs => if truthyId v.docId = some d then some i else vecRankFrom d (i + 1) vs

/-- Claim-side vector score of document `d`: `1 − (rank−1)×0.1` for a
vector-path hit at 1-based rank `rank`, and 0 for a document absent from
the vector path. -/
def vScoreSpec (vres : List VRes) (d : ℕ) : ℚ :=
  match vecRankFrom d 1 vres with
  | some r => 1 - ((r : ℚ) - 1) * (1 / 10)
  | none => 0

/-- The first keyword result carrying (truthy) document id `d`. -/
def kwFirst (d : ℕ) (kres : List KRes) : Option KRes :=
  kres.find? (fun r => truthyId r.docId == some d)

/-- Claim-side keyword score of document `d`: the raw keyword score
divided by 10, and 0 for a document absent from the keyword path. -/
def kScoreSpec (kres : List KRes) (d : ℕ) : ℚ :=
  match kwFirst d kres with
  | some r => r.score / 10
  | none => 0

/-- Truthy document ids of the vector results, in order. -/
def vIds (l : List VRes) : List ℕ :=
  l.filterMap (fun v => truthyId v.docId)

/-- Truthy document ids of the keyword results, in order. -/
def kIds (l : List KRes) : List ℕ :=
  l.filterMap (fun r => truthyId r.docId)

/-- Keys of an association list. -/
def keysOf (l : List (ℕ × ScoreEntry)) : List ℕ :=
  l.map (fun p => p.1)

/-- The first vector result carrying (truthy) document id `d`, with its
1-based rank, counting from `i`. -/
def vecFirstFrom (d : ℕ) : ℕ → List VRes → Option (ℕ × VRes)
  | _, [] => none
  | i, v :: vs =>
      if truthyId v.docId = some d then some (i, v) else vecFirstFrom d (i + 1) vs

/-- The invariant of a `doc_scores` entry: its stored `doc_info` carries
the (truthy) document id under which it is keyed. -/
def entryOk (p : ℕ × ScoreEntry) : Prop :=
  truthyId (infoDocId p.2.info) = some p.1

/-! ### Vector retrieval and reranking (`VectorRetrievalService`)

The Chroma index, the BGE cross-encoder and the LLM are collaborator
oracles.  `none` from the cross-encoder oracle stands for any failure on
that strategy (missing dependency, model-load failure on every device,
or a `predict` exception); `none` from the LLM oracle stands for an
`invoke` exception or an unparsable score reply, which the code turns
into the neutral default `5.0`. -/

/-- A LangChain document: page content, opaque remaining metadata, and
the `metadata["score"]` slot that `retrieve` fills in. -/
structure LCDoc where
  pageContent : String
  meta : String
  score : Option ℚ
deriving DecidableEq

/-- The per-chunk scoring prompt of the LLM rerank strategy. -/
def scorePrompt (query : String) (doc : LCDoc) : String :=
  "请评估以下文档片段与查询的相关性，返回 0-10 的分数（10 表示最相关）。\n\n查询：" ++ query ++
    "\n\n文档片段：\n" ++ strTake doc.pageContent 500 ++ "\n\n只返回一个数字分数（0-10）："

/-- One chunk's LLM score: the parsed reply, or the default `5.0` when
`invoke` raises or the reply does not parse as a float. -/
def llmScoreOf (llmFn : String → Option ℚ) (query : String) (doc : LCDoc) : ℚ :=
  match llmFn (scorePrompt query doc) with
  | some s => s
  | none => 5

/-- `_rerank`: try the BGE cross-encoder (strategy 1); on failure and
without an LLM return the first `top_k` unchanged; otherwise score every
chunk with the LLM (strategy 2), sort descending (stably) and keep
`top_k`. -/
def rerank (bge : String → List LCDoc → Option (List ℚ))
    (llmO : Option (String → Option ℚ)) (query : String)
    (docs : List LCDoc) (topK : ℕ) : List LCDoc :=
  match bge query docs with
  | some scores =>
      ((sortDescBy (fun p => p.1) (scores.zip docs)).take topK).map (fun p => p.2)
  | none =>
      match llmO with
      | none => docs.take topK
      | some llmFn =>
          let scored := docs.map (fun d => (llmScoreOf llmFn query d, d))
          ((sortDescBy (fun p => p.1) scored).take topK).map (fun p => p.2)

/-- `_build_filter`: a truthy `doc_type` becomes a Chroma filter,
otherwise no filter is passed. -/
def buildFilter (docType : Option String) : Option String :=
  match docType with
  | some s => if s = "" then none else some s
  | none => none

/-- The score-threshold pass of `retrieve`: attach each returned score to
the chunk's metadata, and drop the chunk when a threshold is configured,
the score is present, and the score is below the threshold. -/
def threshFilter (scoreThreshold : Option ℚ)
    (dws : List (LCDoc × Option ℚ)) : List LCDoc :=
  dws.filterMap (fun p =>
    let d := { p.1 with score := p.2 }
    match scoreThreshold, p.2 with
    | some t, some sv => if sv < t then none else some d
    | _, _ => some d)

/-- `retrieve`: compute `initial_k = max(k, rerank_k*3)` when reranking
is enabled with a truthy `rerank_k`, query the index at `initial_k`,
apply the score-threshold filter, rerank when more than `rerank_k`
chunks survive, and truncate to `rerank_k` (or to `k` when `rerank_k` is
falsy). -/
def retrieve (search : ℕ → Option String → List (LCDoc × Option ℚ))
    (bge : String → List LCDoc → Option (List ℚ))
    (llmO : Option (String → Option ℚ))
    (enableRerank : Bool) (scoreThreshold : Option ℚ)
    (query : String) (k : ℕ) (docType : Option String)
    (rerankK : Option ℕ) : List LCDoc :=
  let wf := buildFilter docType
  let initialK :=
    match rerankK with
    | some r => if enableRerank = true ∧ r ≠ 0 then max k (r * 3) else k
    | none => k
  let docs := threshFilter scoreThreshold (search initialK wf)
  let docs :=
    match rerankK with
    | some r =>
        if enableRerank = true ∧ r ≠ 0 ∧ r < docs.length then rerank bge llmO query docs r
        else docs
    | none => docs
  match rerankK with
  | none => docs.take k
  | some r => if r = 0 then docs.take k else docs.take r

/-! ### Document pipeline streaming (`RAGPipeline.stream_query`) -/

/-- One `retrieve_with_metadata` result entry; `rindex` is the 1-based
`index` field it was assigned. -/
structure RRes where
  rindex : ℕ
  content : String
  source : String
  title : String
  docId : Option ℕ
  page : Option ℕ
  chunkIndex : Option ℕ
  score : Option ℚ
deriving DecidableEq

/-- A citation payload, shared by both pipelines (fields a pipeline does
not emit are `none`). -/
structure Citation where
  index : ℕ
  source : String
  title : String
  snippet : String
  docId : Option ℕ
  page : Option ℕ
  chunkIndex : Option ℕ
  chunkPosition : Option String
  score : Option ℚ
deriving DecidableEq

/-- A stream event: the tagged union yielded by both pipelines. -/
inductive SEvent where
  | citations (cs : List Citation)
  | chunk (s : String)
  | final (answer : String) (cs : List Citation)
  | error (msg : String)
deriving DecidableEq

/-- The citation `stream_query` builds for one retrieved chunk: snippet
truncated to 200 characters with an ellipsis, and a 1-based
"第 N 段" chunk position when a chunk index is present. -/
def mkDocCitation (r : RRes) : Citation :=
  ⟨r.rindex, r.source, r.title,
    (if 200 < r.content.data.length then strTake r.content 200 ++ "..." else r.content),
    r.docId, r.page, r.chunkIndex,
    r.chunkIndex.map (fun ci => "第 " ++ natToStr (ci + 1) ++ " 段"),
    r.score⟩

/-- `max(scores) if scores else 0.0` over the present relevance scores. -/
def maxScoreOf (rs : List RRes) : ℚ :=
  match rs.filterMap (fun r => r.score) with
  | [] => 0
  | s :: rest => rest.foldl max s

/-- The fixed gating / refusal message. -/
def noRelevantMsg : String := "知识库中没有相关内容"

/-- The strict relevance gate threshold. -/
def strictThreshold : ℚ := 2 / 5

/-- `RAGPipeline.stream_query` as an event list: `toks` are the contents
of the streamed LLM chunks (the oracle's reply); empty contents are
neither yielded nor joined.  On the gating path (max score below the
threshold, or no results) the LLM stream is never consulted. -/
def streamQuery (rs : List RRes) (toks : List String) : List SEvent :=
  let citations := rs.map mkDocCitation
  if maxScoreOf rs < strictThreshold ∨ rs = [] then
    [SEvent.citations [], SEvent.final noRelevantMsg []]
  else
    let chunks := toks.filter (fun s => s ≠ "")
    SEvent.citations citations ::
      (chunks.map SEvent.chunk ++ [SEvent.final (strConcat chunks) citations])

/-- Payloads of the chunk events of a stream, in order. -/
def chunkPayloads (evs : List SEvent) : List String :=
  evs.filterMap (fun e => match e with | SEvent.chunk s => some s | _ => none)

/-- Answers of the final events of a stream, in order. -/
def finalAnswers (evs : List SEvent) : List String :=
  evs.filterMap (fun e => match e with | SEvent.final a _ => some a | _ => none)

/-- Whether an event is terminal (`final` or `error`). -/
def isTerminalEv : SEvent → Bool
  | SEvent.final _ _ => true
  | SEvent.error _ => true
  | _ => false

/-- Whether an event is an `error` event. -/
def isErrorEv : SEvent → Bool
  | SEvent.error _ => true
  | _ => false

/-- Number of terminal events of a stream. -/
def terminalCount (evs : List SEvent) : ℕ :=
  (evs.filter isTerminalEv).length

/-- Number of `error` events of a stream. -/
def errorCount (evs : List SEvent) : ℕ :=
  (evs.filter isErrorEv).length

/-- Helper for `citationsBeforeChunks`: `seen` records whether a
citations event has already been emitted. -/
def cbcAux : Bool → List SEvent → Bool
  | _, [] => true
  | seen, e :: es =>
      match e with
      | SEvent.citations _ => cbcAux true es
      | SEvent.chunk _ => seen && cbcAux seen es
      | _ => cbcAux seen es

/-- The claim's ordering property: every chunk event is preceded by some
citations event. -/
def citationsBeforeChunks (evs : List SEvent) : Bool :=
  cbcAux false evs

/-! ### Table query pipeline (`services/table_query.py`)

Cell values and filter conditions are strings; the builtin `float`
parser is the oracle `parse : String → Option ℚ` (`none` = `ValueError`).
`json.loads` on the extracted span is the oracle
`jsonLoads : String → Option TablePlan`.  The `f"{v:,.2f}"` rendering of
a statistic value is the oracle `fmt : ℚ → String`. -/

/-- `clean_column_name`'s quote-peeling loop, with fuel bounding the
number of iterations (each iteration shortens the string, so
`length + 1` fuel always suffices). -/
def cleanQuotes : ℕ → String → String
  | 0, s => s
  | n + 1, s =>
      if (strStarts s "\"" ∧ strEnds s "\"") ∨ (strStarts s "\x27" ∧ strEnds s "\x27") then
        cleanQuotes n (strTrim (strDropRight (strDrop s 1) 1))
      else s

/-- `clean_column_name`: strip, peel symmetric quote pairs, remove
escaped-quote artifacts, strip again; the empty name is returned as is. -/
def cleanColumnName (name : String) : String :=
  if name = "" then name
  else
    let s := strTrim name
    let s := cleanQuotes (s.data.length + 1) s
    let s := strReplace (strReplace s "\\\"" "") "\\\x27" ""
    strTrim s

/-- A row: a Python dict column → cell value, insertion-ordered. -/
abbrev TRow := List (String × String)

/-- Dict lookup on a row (`column in row` / `row.get(column)`). -/
def rowGet (row : TRow) (c : String) : Option String :=
  (row.find? (fun p => p.1 == c)).map (fun p => p.2)

/-- `cell_num = float(cell_value) if cell_value else 0`: a falsy (empty)
cell is numeric 0 without consulting the parser. -/
def cellNumOf (parse : String → Option ℚ) (cell : String) : Option ℚ :=
  if cell = "" then some 0 else parse cell

/-- The case-insensitive substring fallback
`filter_str.lower() in str(cell_value).lower()`. -/
def textMatch (cell f : String) : Bool :=
  strHasSub (strLower cell) (strLower f)

/-- One filter condition on one cell, in the code's precedence: `>=`,
`<=`, `>`, `<` numeric comparisons; a `A-B` pattern (not starting with
`-`, splitting into exactly two parts) as inclusive numeric range;
otherwise numeric equality within 0.01; any failed `float` parse falls
back to the case-insensitive substring text match.  An `A-B-C…` pattern
performs no check at all. -/
def evalCondition (parse : String → Option ℚ) (cell : String) (f : String) : Bool :=
  match cellNumOf parse cell with
  | none => textMatch cell f
  | some cn =>
      if strStarts f ">=" then
        match parse (strTrim (strDrop f 2)) with
        | some v => decide (v ≤ cn)
        | none => textMatch cell f
      else if strStarts f "<=" then
        match parse (strTrim (strDrop f 2)) with
        | some v => decide (cn ≤ v)
        | none => textMatch cell f
      else if strStarts f ">" then
        match parse (strTrim (strDrop f 1)) with
        | some v => decide (v < cn)
        | none => textMatch cell f
      else if strStarts f "<" then
        match parse (strTrim (strDrop f 1)) with
        | some v => decide (cn < v)
        | none => textMatch cell f
      else if strHasSub f "-" ∧ ¬ strStarts f "-" then
        match strSplitChar '-' f with
        | [a, b] =>
            match parse (strTrim a), parse (strTrim b) with
            | some mn, some mx => decide (mn ≤ cn ∧ cn ≤ mx)
            | _, _ => textMatch cell f
        | _ => true
      else
        match parse f with
        | some fv => decide (|cn - fv| ≤ 1 / 100)
        | none => textMatch cell f

/-- Whether a row passes all filter conditions: each key is cleaned and
resolved case-insensitively against the column list; an unresolved
column, an empty condition, or a column absent from the row skips that
condition (it passes). -/
def rowMatchesFilters (parse : String → Option ℚ) (cols : List String)
    (filters : List (String × String)) (row : TRow) : Bool :=
  filters.all (fun p =>
    let col := cleanColumnName p.1
    match cols.find? (fun c => strLower c == strLower col) with
    | none => true
    | some actual =>
        if strTrim p.2 = "" then true
        else if actual = "" then true
        else
          match rowGet row actual with
          | none => true
          | some cell => evalCondition parse cell (strTrim p.2))

/-- Python `str(v).replace(".", "").replace("-", "").isdigit()`. -/
def pyDigitTest (s : String) : Bool :=
  let t := s.data.filter (fun c => c ≠ '.' ∧ c ≠ '-')
  decide (t ≠ []) && t.all Char.isDigit

/-- The sort step of the table query over one resolved column: the
numeric key `float(x.get(col, 0))` is used when every row passes the
digit test and parses (otherwise Python raises `TypeError`/`ValueError`
into the fallback), else the textual key `str(x.get(col, ""))`; both
sorts are stable, descending iff `sort_order == "desc"`. -/
def sortTableRows (parse : String → Option ℚ) (desc : Bool) (col : String)
    (rows : List TRow) : List TRow :=
  let strKey : TRow → String := fun r => (rowGet r col).getD ""
  let numOk : TRow → Bool := fun r =>
    pyDigitTest ((rowGet r col).getD "") &&
      (match rowGet r col with
       | some v => (parse v).isSome
       | none => false)
  let numKey : TRow → ℚ := fun r =>
    match rowGet r col with
    | some v => (parse v).getD 0
    | none => 0
  if rows.all numOk then
    sortStable (fun a b =>
      if desc then decide (numKey b ≤ numKey a) else decide (numKey a ≤ numKey b)) rows
  else
    sortStable (fun a b =>
      if desc then decide (strKey b ≤ strKey a) else decide (strKey a ≤ strKey b)) rows

/-- The structured plan extracted from the analysis reply
(`analysis_result` viewed through the `.get` accesses the code performs;
an absent or JSON-null key is `none`). -/
structure TablePlan where
  filters : List (String × String)
  statistics : Option String
  statisticsColumn : Option String
  sortBy : Option String
  sortOrder : Option String
  limit : Option ℤ
  explanation : Option String
deriving DecidableEq

/-- The fallback plan: empty filters, no statistic, explanation set to
the raw model output. -/
def fallbackPlan (text : String) : TablePlan :=
  ⟨[], none, none, none, none, none, some text⟩

/-- `re.search(r"\x7b[^\x7b\x7d]*\x7d", …)` body scan: the characters up
to the next `\x7d`, failing if another `\x7b` (or the end) comes first. -/
def scanFlat : List Char → Option (List Char)
  | [] => none
  | c :: cs =>
      if c = '\x7d' then some []
      else if c = '\x7b' then none
      else (scanFlat cs).map (fun body => c :: body)

/-- Leftmost match of the flat-brace-span pattern over a character
list. -/
def findFlat : List Char → Option (List Char)
  | [] => none
  | c :: cs =>
      if c = '\x7b' then
        match scanFlat cs with
        | some body => some body
        | none => findFlat cs
      else findFlat cs

/-- The first `\x7b…\x7d` span of the text containing no nested braces
(the semantics of the `re.search` call), including its braces. -/
def extractFlatSpan (s : String) : Option String :=
  (findFlat s.data).map (fun body => String.mk ('\x7b' :: body ++ ['\x7d']))

/-- Plan construction from the analysis reply (lines 160–170): extract
the first flat brace span and `json.loads` it; when there is no span or
parsing raises, fall back to the empty plan carrying the raw text as
explanation. -/
def buildPlan (jsonLoads : String → Option TablePlan) (text : String) : TablePlan :=
  match extractFlatSpan text with
  | some span =>
      match jsonLoads span with
      | some p => p
      | none => fallbackPlan text
  | none => fallbackPlan text

/-- The sanitization step (lines 172–180): clean every filter key (dict
semantics: equal cleaned keys collapse, the later value wins), the
statistics column and the sort column. -/
def sanitizePlan (p : TablePlan) : TablePlan :=
  { p with
    filters := p.filters.foldl (fun acc q => dictSet acc (cleanColumnName q.1) q.2) [],
    statisticsColumn := p.statisticsColumn.map cleanColumnName,
    sortBy := p.sortBy.map cleanColumnName }

/-- Truthiness of an optional string (`None` and `""` are falsy). -/
def truthyStr : Option String → Bool
  | some s => s ≠ ""
  | none => false

/-- The parsed view of one data source row and its `config` JSON:
`configOk = false` stands for a `json.loads`/processing exception with
message `configErrMsg`. -/
structure TConfig where
  name : String
  id : ℕ
  dsType : String
  configOk : Bool
  configErrMsg : String
  ctype : Option String
  filename : Option String
  cdata : List TRow
  ccolumns : List String
deriving DecidableEq

/-- Column keys of the first row (`list(data[0].keys())`). -/
def headKeys : List TRow → List String
  | [] => []
  | row :: _ => row.map (fun p => p.1)

/-- The type dispatch of the schema/data extraction (both phases run the
same code): `manual_table` configs, `excel` sources with a truthy
filename and data, and `database` sources with data contribute their
rows and columns; missing columns fall back to the first row's keys. -/
def dsExtract (c : TConfig) : List String × List TRow :=
  let dc :=
    if c.ctype = some "manual_table" then (c.ccolumns, c.cdata)
    else if c.dsType = "excel" ∧ truthyStr c.filename = true then
      if c.cdata ≠ [] then (c.ccolumns, c.cdata) else ([], [])
    else if c.dsType = "database" then
      if c.cdata ≠ [] then (c.ccolumns, c.cdata) else ([], [])
    else ([], [])
  if dc.1 = [] ∧ dc.2 ≠ [] then (headKeys dc.2, dc.2) else dc

/-- One schema summary collected in the first phase. -/
structure TSchema where
  name : String
  id : ℕ
  columns : List String
  rowCount : ℕ
deriving DecidableEq

/-- Phase 1: collect a schema for every data source whose config parses
and which yields a non-empty column list. -/
def mkSchemas (dss : List TConfig) : List TSchema :=
  dss.filterMap (fun c =>
    if c.configOk = false then none
    else
      let e := dsExtract c
      if e.1 ≠ [] then some ⟨c.name, c.id, e.1, e.2.length⟩ else none)

/-- One entry of `query_results`: the per-data-source result string, up
to 10 sample rows, the filtered row count, and the statistics record
when one was computed. -/
structure QueryResult where
  dataSource : String
  result : String
  data : List TRow
  total : ℕ
  stats : Option (String × Option String × ℚ)
deriving DecidableEq

/-- The statistics / narration step over the filtered (sorted, limited)
rows of one schema, producing its `query_results` entry. -/
def applyStats (parse : String → Option ℚ) (fmt : ℚ → String) (plan : TablePlan)
    (s : TSchema) (cols : List String) (rows : List TRow) : QueryResult :=
  match (match plan.statistics with
         | some st => if st = "" then none else some st
         | none => none) with
  | none =>
      ⟨s.name,
        "找到 " ++ natToStr rows.length ++ " 条匹配记录" ++
          (match plan.limit with
           | some n => if n ≠ 0 then
               "（显示前 " ++ intToStr (min (rows.length : ℤ) n) ++ " 条）" else ""
           | none => ""),
        rows.take 10, rows.length, none⟩
  | some st =>
      if st = "count" then
        ⟨s.name, "共 " ++ natToStr rows.length ++ " 条记录", [], rows.length,
          some ("count", none, (rows.length : ℚ))⟩
      else
        let stIn := st = "sum" ∨ st = "avg" ∨ st = "max" ∨ st = "min"
        let resolved : Option String :=
          if stIn ∧ truthyStr plan.statisticsColumn then
            cols.find? (fun col =>
              strLower col == strLower (cleanColumnName (plan.statisticsColumn.getD "")))
          else plan.statisticsColumn
        match resolved with
        | some sc =>
            if stIn ∧ sc ≠ "" ∧ sc ∈ cols then
              let values := rows.filterMap (fun row =>
                match rowGet row sc with
                | none => none
                | some v => if v ≠ "" then parse v else none)
              match values with
              | [] =>
                  ⟨s.name,
                    "找到 " ++ natToStr rows.length ++
                      " 条记录，但无法计算统计值（列 \x27" ++ sc ++ "\x27 没有有效数值）",
                    rows.take 10, rows.length, none⟩
              | v0 :: vrest =>
                  let val :=
                    if st = "sum" then values.sum
                    else if st = "avg" then values.sum / (values.length : ℚ)
                    else if st = "max" then vrest.foldl max v0
                    else vrest.foldl min v0
                  let txt :=
                    if st = "sum" then "总和: " ++ fmt val
                    else if st = "avg" then "平均值: " ++ fmt val
                    else if st = "max" then "最大值: " ++ fmt val
                    else "最小值: " ++ fmt val
                  ⟨s.name, txt, rows.take 10, rows.length, some (st, some sc, val)⟩
            else
              ⟨s.name, "找到 " ++ natToStr rows.length ++ " 条匹配记录",
                rows.take 10, rows.length, none⟩
        | none =>
            ⟨s.name, "找到 " ++ natToStr rows.length ++ " 条匹配记录",
              rows.take 10, rows.length, none⟩

/-- The sort-column resolution and sort application for one schema. -/
def applySort (parse : String → Option ℚ) (plan : TablePlan) (cols : List String)
    (rows : List TRow) : List TRow :=
  match plan.sortBy with
  | none => rows
  | some sb0 =>
      if sb0 = "" then rows
      else
        let sb := cleanColumnName sb0
        match cols.find? (fun col => strLower col == strLower sb) with
        | none => rows
        | some col =>
            if col ≠ "" ∧ col ∈ cols then
              sortTableRows parse (plan.sortOrder = some "desc") col rows
            else rows

/-- Phase 2 for one schema: re-fetch the data source by id (`continue`
with no entry when absent), re-extract rows and columns, filter, sort,
limit, and compute the statistics entry.  A config that fails to parse
here yields the `查询失败` error entry. -/
def processSchema (parse : String → Option ℚ) (fmt : ℚ → String)
    (dss : List TConfig) (plan : TablePlan) (s : TSchema) : Option QueryResult :=
  match dss.find? (fun c => c.id == s.id) with
  | none => none
  | some c =>
      if c.configOk = false then
        some ⟨s.name, "查询失败: " ++ c.configErrMsg, [], 0, none⟩
      else
        let e := dsExtract c
        let cols := if e.1 = [] ∧ e.2 ≠ [] then headKeys e.2 else e.1
        let filtered :=
          if plan.filters ≠ [] then e.2.filter (rowMatchesFilters parse cols plan.filters)
          else e.2
        let sorted := applySort parse plan cols filtered
        let limited :=
          match plan.limit with
          | some n => if 0 < n then sorted.take n.toNat else sorted
          | none => sorted
        some (applyStats parse fmt plan s cols limited)

/-- The citations built from `query_results` (the table pipeline emits
no score / chunk fields). -/
def mkTableCitations (qrs : List QueryResult) : List Citation :=
  (List.range qrs.length).zip qrs |>.map (fun p =>
    ⟨p.1 + 1, "数据源: " ++ p.2.dataSource, p.2.dataSource, p.2.result,
      none, none, none, none, none⟩)

/-- The `results_summary` narration text. -/
def resultsSummaryOf (qrs : List QueryResult) : String :=
  strIntercalate "\n" (qrs.map (fun r =>
    "- " ++ r.dataSource ++ ": " ++ r.result ++
      (if 0 < r.total then " (共 " ++ natToStr r.total ++ " 条)" else "")))

/-- The oracle inputs of one table-pipeline request: the parsed data
sources, the analysis LLM reply (`.error` = `invoke` raised with that
message), and the answer stream (the non-empty token contents yielded
before it either finished, `streamOk = true`, or raised). -/
structure TInput where
  dataSources : List TConfig
  analysis : Except String String
  streamToks : List String
  streamOk : Bool

/-- `stream_table_query` as an event list (each yield is the JSON
payload of one SSE line).  The initial progress chunk is yielded
unconditionally; every early-exit path yields one notice chunk and one
final event; the main path yields the answer chunks, then the citations
event, then the final event. -/
def tableStream (parse : String → Option ℚ) (fmt : ℚ → String)
    (jsonLoads : String → Option TablePlan) (inp : TInput) : List SEvent :=
  SEvent.chunk "正在分析表格数据..." ::
    (if inp.dataSources = [] then
      [SEvent.chunk "该知识库没有数据源。",
       SEvent.final "该知识库没有数据源，请先添加数据源。" []]
    else
      let schemas := mkSchemas inp.dataSources
      if schemas = [] then
        [SEvent.chunk "没有可用的表格数据。",
         SEvent.final "没有可用的表格数据，请先添加数据源并导入数据。" []]
      else
        match inp.analysis with
        | Except.error e =>
            [SEvent.chunk "分析查询时出现错误。",
             SEvent.final ("分析查询时出现错误: " ++ e) []]
        | Except.ok text =>
            let plan := sanitizePlan (buildPlan jsonLoads text)
            let qrs := schemas.filterMap (processSchema parse fmt inp.dataSources plan)
            if qrs = [] then
              [SEvent.chunk "没有找到匹配的数据。",
               SEvent.final
                 "根据您的查询条件，没有找到匹配的数据。请尝试调整筛选条件或检查数据源。" []]
            else
              let summary := resultsSummaryOf qrs
              let toks := inp.streamToks.filter (fun s => s ≠ "")
              let chunkEvs :=
                if inp.streamOk then toks.map SEvent.chunk
                else toks.map SEvent.chunk ++ [SEvent.chunk summary]
              let answerChunks := if inp.streamOk then toks else [summary]
              let fa0 := if answerChunks ≠ [] then strConcat answerChunks else summary
              let fa :=
                if strTrim fa0 = "" then
                  (if summary ≠ "" then summary else "查询完成，但没有生成回答。")
                else fa0
              let cits := mkTableCitations qrs
              chunkEvs ++ [SEvent.citations cits, SEvent.final fa cits])

/-! ### A concrete decimal parser

Witnesses and counterexamples need a concrete instance of the `float`
oracle; `parseDec` evaluates plain (optionally signed) decimal literals
exactly as Python's `float` does on them, and rejects everything else. -/

/-- Numeric value of a digit run (0 for the empty run). -/
def digitsVal (l : List Char) : ℕ :=
  l.foldl (fun acc c => acc * 10 + (c.toNat - 48)) 0

/-- Concrete decimal parser: optional sign, digits with at most one
decimal point and at least one digit overall. -/
def parseDec (s : String) : Option ℚ :=
  let t := strTrim s
  let sb : ℚ × List Char :=
    match t.data with
    | '-' :: rest => (-1, rest)
    | '+' :: rest => (1, rest)
    | l => (1, l)
  match listSplitChar '.' sb.2 with
  | [ip] =>
      if ip ≠ [] ∧ ip.all Char.isDigit then some (sb.1 * (digitsVal ip : ℚ)) else none
  | [ip, fp] =>
      if ip ++ fp ≠ [] ∧ (ip ++ fp).all Char.isDigit then
        some (sb.1 * ((digitsVal ip : ℚ) + (digitsVal fp : ℚ) / (10 ^ fp.length)))
      else none
  | _ => none

/-! ### Concrete fixtures used by witnesses and counterexamples -/

/-- Two vector-path results with distinct truthy document ids. -/
def vresW : List VRes :=
  [⟨some 1, some (9/10), "a"⟩, ⟨some 2, some (4/5), "b"⟩]

/-- Two keyword-path results with distinct truthy document ids. -/
def kresW : List KRes :=
  [⟨1, some 2, 4, "c"⟩, ⟨2, some 3, 6, "d"⟩]

/-- Three documents for the rerank no-op witness. -/
def docsW : List LCDoc :=
  [⟨"d1", "m1", none⟩, ⟨"d2", "m2", none⟩, ⟨"d3", "m3", none⟩]

/-- A concrete index oracle: two scored documents, whatever `k` and
filter are requested. -/
def searchW : ℕ → Option String → List (LCDoc × Option ℚ) :=
  fun _ _ => [(⟨"good", "m1", none⟩, some (9/10)), (⟨"bad", "m2", none⟩, some (1/10))]

/-- One retrieved chunk scoring above the gate threshold. -/
def rresW : RRes :=
  ⟨1, "content", "src", "ttl", some 7, none, some 0, some (1/2)⟩

/-- A concrete statistic formatter standing in for `f"{v:,.2f}"`. -/
def fmtW : ℚ → String := fun _ => "0.00"

/-- A `json.loads` oracle for runs whose path never parses a plan. -/
def jsonNone : String → Option TablePlan := fun _ => none

/-- A table-pipeline input with no data sources at all. -/
def tinEmpty : TInput :=
  ⟨[], Except.ok "x", ["tok"], true⟩

/-- A manual-table data source with two rows in one `amount` column. -/
def dsW : TConfig :=
  ⟨"ds", 1, "manual", true, "", some "manual_table", none,
    [[("amount", "150")], [("amount", "50")]], ["amount"]⟩

/-- A table-pipeline input that reaches the main streaming path: one
data source, an analysis reply with no brace span (so the fallback empty
plan applies), and a successfully streamed answer. -/
def tinMain : TInput :=
  ⟨[dsW], Except.ok "PLAN", ["The answer"], true⟩

/-- The strict-JSON counterexample reply for plan construction: a valid
JSON object whose `filters` value is a nested object. -/
def textCE : String :=
  "\x7b\"filters\": \x7b\"a\": \">1\"\x7d\x7d"

/-- The plan `json.loads` yields on the full counterexample reply. -/
def planFullCE : TablePlan :=
  ⟨[("a", ">1")], none, none, none, none, none, none⟩

/-- The plan `json.loads` yields on the inner span (a dict with no
`filters` key reads back as an empty filter map). -/
def planInnerCE : TablePlan :=
  ⟨[], none, none, none, none, none, none⟩

/-- A `json.loads` oracle agreeing with Python's `json.loads` on the
two JSON texts the counterexample involves. -/
def jsonCE : String → Option TablePlan :=
  fun s =>
    if s = textCE then some planFullCE
    else if s = "\x7b\"a\": \">1\"\x7d" then some planInnerCE
    else none

/-- The example rows of the filter claim. -/
def rowsC7 : List TRow :=
  [[("amount", "150")], [("amount", "50")]]

/-! ### Helper lemmas: stable sort -/

theorem insStable_perm (pre : α → α → Bool) (x : α) (l : List α) :
    (insStable pre x l).Perm (x :: l) := by
  induction l with
  | nil => simp [insStable]
  | cons y ys ih =>
      by_cases h : pre x y = true
      · simp [insStable, h]
      · simp only [insStable, h, if_false]
        exact ((ih.cons y).trans (List.Perm.swap x y ys))

theorem sortStable_perm (pre : α → α → Bool) (l : List α) :
    (sortStable pre l).Perm l := by
  induction l with
  | nil => simp [sortStable]
  | cons x xs ih =>
      exact (insStable_perm pre x (sortStable pre xs)).trans (ih.cons x)

theorem sortDescBy_perm (key : α → ℚ) (l : List α) : (sortDescBy key l).Perm l :=
  sortStable_perm _ l

theorem insStable_pairwise (key : α → ℚ) (x : α) (l : List α)
    (h : l.Pairwise (fun a b => key b ≤ key a)) :
    (insStable (fun a b => decide (key b ≤ key a)) x l).Pairwise
      (fun a b => key b ≤ key a) := by
  induction l with
  | nil => simp [insStable]
  | cons y ys ih =>
      rcases List.pairwise_cons.mp h with ⟨hy, hys⟩
      by_cases hc : key y ≤ key x
      · simp only [insStable, decide_eq_true_eq, hc, if_pos]
        refine List.pairwise_cons.mpr ⟨?_, h⟩
        intro z hz
        rcases List.mem_cons.mp hz with rfl | hz'
        · exact hc
        · exact le_trans (hy z hz') hc
      · simp only [insStable, decide_eq_true_eq, hc, if_neg, not_false_iff]
        refine List.pairwise_cons.mpr ⟨?_, ih hys⟩
        intro z hz
        have hz' := (insStable_perm (fun a b => decide (key b ≤ key a)) x ys).mem_iff.mp hz
        rcases List.mem_cons.mp hz' with rfl | hz''
        · exact le_of_lt (lt_of_not_le hc)
        · exact hy z hz''

theorem sortDescBy_pairwise (key : α → ℚ) (l : List α) :
    (sortDescBy key l).Pairwise (fun a b => key b ≤ key a) := by
  induction l with
  | nil => simp [sortDescBy, sortStable]
  | cons x xs ih => exact insStable_pairwise key x _ ih

theorem sortDescBy_const_key (key : α → ℚ) (c : ℚ) (l : List α)
    (h : ∀ a ∈ l, key a = c) : sortDescBy key l = l := by
  induction l with
  | nil => rfl
  | cons x xs ih =>
      have hx : key x = c := h x (List.mem_cons_self x xs)
      have htl : sortDescBy key xs = xs := ih (fun a ha => h a (List.mem_cons_of_mem x ha))
      show insStable _ x (sortDescBy key xs) = x :: xs
      rw [htl]
      cases xs with
      | nil => rfl
      | cons y ys =>
          have hy : key y = c := h y (by simp)
          simp [insStable, hx, hy]

/-! ### Helper lemmas: association lists -/

theorem dictSet_keys [BEq α] [LawfulBEq α] (l : List (α × β)) (k : α) (v : β) :
    (dictSet l k v).map Prod.fst =
      if (l.map Prod.fst).contains k then l.map Prod.fst else l.map Prod.fst ++ [k] := by
  induction l with
  | nil => simp [dictSet]
  | cons p rest ih =>
      by_cases h : p.1 = k
      · cases p
        simp_all [dictSet]
      · cases p with
        | mk k' v' =>
            simp only at h
            simp only [dictSet, beq_iff_eq, h, if_false, List.map_cons, List.contains_cons]
            have : (k == k') = false := by
              simp [beq_iff_eq]
              exact fun hh => h hh.symm
            rw [this]
            simp only [Bool.false_or]
            rw [ih]
            by_cases hc : (rest.map Prod.fst).contains k
            · rw [if_pos hc, if_pos hc]
            · rw [if_neg hc, if_neg hc, List.cons_append]

theorem nodup_keys_dictSet [BEq α] [LawfulBEq α] (l : List (α × β)) (k : α) (v : β)
    (h : (l.map Prod.fst).Nodup) : ((dictSet l k v).map Prod.fst).Nodup := by
  rw [dictSet_keys]
  by_cases hc : (l.map Prod.fst).contains k
  · rw [if_pos hc]
    exact h
  · have hk : k ∉ l.map Prod.fst := by
      intro hm
      exact absurd (List.elem_iff.mpr hm) (by simpa [List.contains] using hc)
    simp [hc, List.nodup_append, h, hk]

theorem dictSet_absent [BEq α] [LawfulBEq α] (l : List (α × β)) (k : α) (v : β)
    (h : k ∉ l.map Prod.fst) : dictSet l k v = l ++ [(k, v)] := by
  induction l with
  | nil => rfl
  | cons p rest ih =>
      have h1 : p.1 ≠ k := by
        intro hh
        exact h (by simp [hh])
      have h2 : k ∉ rest.map Prod.fst := fun hm => h (by simp [hm])
      cases p
      simp_all [dictSet]

theorem dictGet_set_self [BEq α] [LawfulBEq α] (l : List (α × β)) (k : α) (v : β) :
    dictGet (dictSet l k v) k = some v := by
  induction l with
  | nil => simp [dictSet, dictGet, List.find?]
  | cons p rest ih =>
      cases p with
      | mk k' v' =>
          by_cases h : k' = k
          · simp [dictSet, dictGet, List.find?, h]
          · have hne : (k' == k) = false := by simp [beq_iff_eq, h]
            simp only [dictSet, hne, if_false]
            simpa [dictGet, List.find?, hne] using ih

theorem dictGet_set_ne [BEq α] [LawfulBEq α] (l : List (α × β)) (k k' : α) (v : β)
    (h : k ≠ k') : dictGet (dictSet l k' v) k = dictGet l k := by
  induction l with
  | nil =>
      have : (k' == k) = false := by simp [beq_iff_eq]; exact fun hh => h hh.symm
      simp [dictSet, dictGet, List.find?, this]
  | cons p rest ih =>
      cases p with
      | mk a b =>
          by_cases ha : a = k'
          · subst ha
            have : (a == k) = false := by simp [beq_iff_eq]; exact fun hh => h hh.symm
            simp [dictSet, dictGet, List.find?, this]
          · have hne : (a == k') = false := by simp [beq_iff_eq, ha]
            simp only [dictSet, hne, if_false]
            by_cases hak : a = k
            · simp [dictGet, List.find?, hak]
            · have hne2 : (a == k) = false := by simp [beq_iff_eq, hak]
              simpa [dictGet, List.find?, hne2] using ih

theorem dictGet_of_mem [BEq α] [LawfulBEq α] (l : List (α × β)) (k : α) (v : β)
    (hnd : (l.map Prod.fst).Nodup) (hm : (k, v) ∈ l) : dictGet l k = some v := by
  induction l with
  | nil => cases hm
  | cons p rest ih =>
      cases p with
      | mk a b =>
          rcases List.mem_cons.mp hm with heq | htl
          · cases heq
            simp [dictGet, List.find?]
          · have hra : a ∉ rest.map Prod.fst := (List.nodup_cons.mp hnd).1
            have hka : a ≠ k := by
              intro hh
              subst hh
              exact hra (List.mem_map.mpr ⟨(a, v), htl, rfl⟩)
            have hne : (a == k) = false := by simp [beq_iff_eq, hka]
            simpa [dictGet, List.find?, hne] using ih (List.nodup_cons.mp hnd).2 htl

theorem mem_of_dictGet [BEq α] [LawfulBEq α] (l : List (α × β)) (k : α) (v : β)
    (h : dictGet l k = some v) : (k, v) ∈ l := by
  induction l with
  | nil => simp [dictGet, List.find?] at h
  | cons p rest ih =>
      cases p with
      | mk a b =>
          by_cases ha : a = k
          · subst ha
            simp [dictGet, List.find?] at h
            simp [h]
          · have hne : (a == k) = false := by simp [beq_iff_eq, ha]
            simp only [dictGet, List.find?, hne] at h
            exact List.mem_cons_of_mem _ (ih h)

theorem dictSet_forall [BEq α] [LawfulBEq α] (l : List (α × β)) (k : α) (v : β)
    (P : α × β → Prop) (hl : ∀ p ∈ l, P p) (hkv : P (k, v)) :
    ∀ p ∈ dictSet l k v, P p := by
  induction l with
  | nil =>
      intro p hp
      simp [dictSet] at hp
      subst hp
      exact hkv
  | cons q rest ih =>
      cases q with
      | mk a b =>
          intro p hp
          by_cases ha : a = k
          · subst ha
            have hred : dictSet ((a, b) :: rest) a v = (a, v) :: rest := by
              simp [dictSet]
            rw [hred] at hp
            rcases List.mem_cons.mp hp with rfl | hp'
            · exact hkv
            · exact hl p (List.mem_cons_of_mem _ hp')
          · have hne : (a == k) = false := by simp [beq_iff_eq, ha]
            simp only [dictSet, hne, if_false] at hp
            rcases List.mem_cons.mp hp with rfl | hp'
            · exact hl (a, b) (List.mem_cons_self _ _)
            · exact ih (fun q hq => hl q (List.mem_cons_of_mem _ hq)) p hp'


/-! ### Helper lemmas: fusion bookkeeping -/

theorem keysOf_eq (l : List (ℕ × ScoreEntry)) : keysOf l = l.map Prod.fst := rfl

theorem vecRankFrom_eq_first (d : ℕ) (l : List VRes) (i : ℕ) :
    vecRankFrom d i l = (vecFirstFrom d i l).map Prod.fst := by
  induction l generalizing i with
  | nil => rfl
  | cons v vs ih =>
      by_cases h : truthyId v.docId = some d
      · simp [vecRankFrom, vecFirstFrom, h]
      · simp [vecRankFrom, vecFirstFrom, h, ih]

theorem vecFirstFrom_not_mem (d : ℕ) (l : List VRes) (i : ℕ)
    (h : d ∉ vIds l) : vecFirstFrom d i l = none := by
  induction l generalizing i with
  | nil => rfl
  | cons v vs ih =>
      have hhead : truthyId v.docId ≠ some d := by
        intro hh
        exact h (by simp [vIds, List.filterMap_cons, hh])
      have htail : d ∉ vIds vs := by
        intro hh
        apply h
        simp only [vIds, List.filterMap_cons]
        cases truthyId v.docId with
        | none => exact hh
        | some d0 => exact List.mem_cons_of_mem _ hh
      simp [vecFirstFrom, hhead, ih _ htail]

theorem kwFirst_not_mem (d : ℕ) (rs : List KRes)
    (h : d ∉ kIds rs) : kwFirst d rs = none := by
  induction rs with
  | nil => rfl
  | cons r rest ih =>
      have hhead : (truthyId r.docId == some d) = false := by
        rw [beq_eq_false_iff_ne]
        intro hh
        exact h (by simp [kIds, List.filterMap_cons, hh])
      have htail : d ∉ kIds rest := by
        intro hh
        apply h
        simp only [kIds, List.filterMap_cons]
        cases truthyId r.docId with
        | none => exact hh
        | some d0 => exact List.mem_cons_of_mem _ hh
      simp only [kwFirst, List.find?, hhead]
      exact ih htail

theorem procVec_nodup_keys (vs : List VRes) (i : ℕ) (acc : List (ℕ × ScoreEntry))
    (h : (acc.map Prod.fst).Nodup) : ((procVec i vs acc).map Prod.fst).Nodup := by
  induction vs generalizing i acc with
  | nil => exact h
  | cons v rest ih =>
      cases hv : truthyId v.docId with
      | none => simpa [procVec, hv] using ih _ _ h
      | some d => simpa [procVec, hv] using ih _ _ (nodup_keys_dictSet _ _ _ h)

theorem procKw_nodup_keys (rs : List KRes) (acc : List (ℕ × ScoreEntry))
    (h : (acc.map Prod.fst).Nodup) : ((procKw rs acc).map Prod.fst).Nodup := by
  induction rs generalizing acc with
  | nil => exact h
  | cons r rest ih =>
      cases hv : truthyId r.docId with
      | none => simpa [procKw, hv] using ih _ h
      | some d =>
          cases hg : dictGet acc d with
          | none => simpa [procKw, hv, hg] using ih _ (nodup_keys_dictSet _ _ _ h)
          | some e => simpa [procKw, hv, hg] using ih _ (nodup_keys_dictSet _ _ _ h)

theorem procVec_entryOk (vs : List VRes) (i : ℕ) (acc : List (ℕ × ScoreEntry))
    (h : ∀ p ∈ acc, entryOk p) : ∀ p ∈ procVec i vs acc, entryOk p := by
  induction vs generalizing i acc with
  | nil => exact h
  | cons v rest ih =>
      cases hv : truthyId v.docId with
      | none =>
          intro p hp
          rw [procVec, hv] at hp
          exact ih _ _ h p hp
      | some d =>
          intro p hp
          rw [procVec, hv] at hp
          refine ih _ _ (dictSet_forall _ _ _ _ h ?_) p hp
          show truthyId (infoDocId (Sum.inl (i, v))) = some d
          simpa [infoDocId] using hv

theorem procKw_entryOk (rs : List KRes) (acc : List (ℕ × ScoreEntry))
    (h : ∀ p ∈ acc, entryOk p) : ∀ p ∈ procKw rs acc, entryOk p := by
  induction rs generalizing acc with
  | nil => exact h
  | cons r rest ih =>
      cases hv : truthyId r.docId with
      | none =>
          intro p hp
          rw [procKw, hv] at hp
          exact ih _ h p hp
      | some d =>
          intro p hp
          cases hg : dictGet acc d with
          | none =>
              simp only [procKw, hv, hg] at hp
              refine ih _ (dictSet_forall _ _ _ _ h ?_) p hp
              show truthyId (infoDocId (Sum.inr r)) = some d
              simpa [infoDocId] using hv
          | some e =>
              simp only [procKw, hv, hg] at hp
              refine ih _ (dictSet_forall _ _ _ _ h ?_) p hp
              have he : entryOk (d, e) := h (d, e) (mem_of_dictGet _ _ _ hg)
              simpa [entryOk, infoDocId] using he

theorem procVec_dictGet (d : ℕ) (vs : List VRes) (i : ℕ) (acc : List (ℕ × ScoreEntry))
    (hnd : (vIds vs).Nodup) :
    dictGet (procVec i vs acc) d =
      match vecFirstFrom d i vs with
      | some rv => some ⟨vecRankScore rv.1, 0, Sum.inl rv⟩
      | none => dictGet acc d := by
  induction vs generalizing i acc with
  | nil => rfl
  | cons v rest ih =>
      cases hv : truthyId v.docId with
      | none =>
          have htl : (vIds rest).Nodup := by
            simpa [vIds, List.filterMap_cons, hv] using hnd
          have hne : truthyId v.docId ≠ some d := by simp [hv]
          rw [procVec, hv, ih _ _ htl]
          simp [vecFirstFrom, hne]
      | some d0 =>
          have hcons : vIds (v :: rest) = d0 :: vIds rest := by
            simp [vIds, List.filterMap_cons, hv]
          have htl : (vIds rest).Nodup := by
            rw [hcons] at hnd
            exact (List.nodup_cons.mp hnd).2
          have hd0 : d0 ∉ vIds rest := by
            rw [hcons] at hnd
            exact (List.nodup_cons.mp hnd).1
          by_cases hdd : d0 = d
          · subst hdd
            have hnone : vecFirstFrom d0 (i + 1) rest = none :=
              vecFirstFrom_not_mem _ _ _ hd0
            have hhead : vecFirstFrom d0 i (v :: rest) = some (i, v) := by
              simp [vecFirstFrom, hv]
            simp only [procVec, hv, ih _ _ htl, hnone, hhead]
            exact dictGet_set_self _ _ _
          · have hne : truthyId v.docId ≠ some d := by simp [hv, hdd]
            have hstep : vecFirstFrom d i (v :: rest) = vecFirstFrom d (i + 1) rest := by
              simp [vecFirstFrom, hne]
            simp only [procVec, hv, ih _ _ htl, hstep]
            cases hvf : vecFirstFrom d (i + 1) rest with
            | some rv => rfl
            | none =>
                simp only [hvf]
                exact dictGet_set_ne _ _ _ _ (fun hh => hdd hh.symm)

theorem procKw_dictGet (d : ℕ) (rs : List KRes) (acc : List (ℕ × ScoreEntry))
    (hnd : (kIds rs).Nodup) :
    dictGet (procKw rs acc) d =
      match kwFirst d rs with
      | some r =>
          some (match dictGet acc d with
                | some e => { e with kScore := r.score / 10 }
                | none => ⟨0, r.score / 10, Sum.inr r⟩)
      | none => dictGet acc d := by
  induction rs generalizing acc with
  | nil => rfl
  | cons r rest ih =>
      cases hv : truthyId r.docId with
      | none =>
          have htl : (kIds rest).Nodup := by
            simpa [kIds, List.filterMap_cons, hv] using hnd
          have hne : (truthyId r.docId == some d) = false := by simp [hv]
          rw [procKw, hv, ih _ htl]
          simp [kwFirst, List.find?, hne]
      | some d0 =>
          have hcons : kIds (r :: rest) = d0 :: kIds rest := by
            simp [kIds, List.filterMap_cons, hv]
          have htl : (kIds rest).Nodup := by
            rw [hcons] at hnd
            exact (List.nodup_cons.mp hnd).2
          have hd0 : d0 ∉ kIds rest := by
            rw [hcons] at hnd
            exact (List.nodup_cons.mp hnd).1
          by_cases hdd : d0 = d
          · subst hdd
            have hnone : kwFirst d0 rest = none := kwFirst_not_mem _ _ hd0
            have hhead : kwFirst d0 (r :: rest) = some r := by
              simp [kwFirst, List.find?, hv]
            cases hg : dictGet acc d0 with
            | some e =>
                simp only [procKw, hv, hg, ih _ htl, hnone, hhead]
                rw [dictGet_set_self]
            | none =>
                simp only [procKw, hv, hg, ih _ htl, hnone, hhead]
                rw [dictGet_set_self]
          · have hne : (truthyId r.docId == some d) = false := by
              simp [hv]
              exact hdd
            have hstep : kwFirst d (r :: rest) = kwFirst d rest := by
              simp [kwFirst, List.find?, hne]
            have hget : ∀ x : ScoreEntry, dictGet (dictSet acc d0 x) d = dictGet acc d :=
              fun x => dictGet_set_ne _ _ _ _ (fun hh => hdd hh.symm)
            cases hg : dictGet acc d0 with
            | some e =>
                simp only [procKw, hv, hg, ih _ htl, hstep, hget]
            | none =>
                simp only [procKw, hv, hg, ih _ htl, hstep, hget]

theorem reindexFrom_length (l : List FEntry) (i : ℕ) :
    (reindexFrom i l).length = l.length := by
  induction l generalizing i with
  | nil => rfl
  | cons e es ih => simp [reindexFrom, ih]

theorem reindexFrom_map_index (l : List FEntry) (i : ℕ) :
    (reindexFrom i l).map FEntry.index = List.range' i l.length := by
  induction l generalizing i with
  | nil => rfl
  | cons e es ih => simp [reindexFrom, ih, List.range']

theorem reindexFrom_map_score (l : List FEntry) (i : ℕ) :
    (reindexFrom i l).map FEntry.hybridScore = l.map FEntry.hybridScore := by
  induction l generalizing i with
  | nil => rfl
  | cons e es ih => simp [reindexFrom, ih]

theorem reindexFrom_proj (l : List FEntry) (i : ℕ) (e : FEntry)
    (h : e ∈ reindexFrom i l) :
    ∃ e0, e0 ∈ l ∧ e.docId = e0.docId ∧ e.hybridScore = e0.hybridScore ∧
      e.info = e0.info := by
  induction l generalizing i with
  | nil => cases h
  | cons e0 es ih =>
      rcases List.mem_cons.mp h with heq | htl
      · exact ⟨e0, List.mem_cons_self _ _, by simp [heq], by simp [heq], by simp [heq]⟩
      · rcases ih _ htl with ⟨e1, he1, h1, h2, h3⟩
        exact ⟨e1, List.mem_cons_of_mem _ he1, h1, h2, h3⟩

theorem reindexFrom_map_docId (l : List FEntry) (i : ℕ) :
    (reindexFrom i l).map FEntry.docId = l.map FEntry.docId := by
  induction l generalizing i with
  | nil => rfl
  | cons e es ih => simp [reindexFrom, ih]

theorem foldl_eq_of_step (f g : ℚ → String → ℚ) (h : ∀ a s, f a s = g a s)
    (l : List String) (a : ℚ) : l.foldl f a = l.foldl g a := by
  have hfg : f = g := funext fun x => funext fun s => h x s
  rw [hfg]

/-! ### Claims about keyword scoring -/

/-- C6 (counterexample): with query "apple", title "apple", no summary
and content "banana", the code scores 4 (the content term fires on the
concatenated text, which contains the title), while the claim's formula
scores 3. -/
theorem claim6_keyword_score_counterexample :
    calculateKeywordScore "apple" ⟨"apple", none, "banana"⟩ = 4 ∧
    keywordScoreClaim "apple" ⟨"apple", none, "banana"⟩ = 3 ∧
    calculateKeywordScore "apple" ⟨"apple", none, "banana"⟩ ≠
      keywordScoreClaim "apple" ⟨"apple", none, "banana"⟩ := by
  refine ⟨?_, ?_, ?_⟩ <;> with_unfolding_all decide

/-- C6 (amended): the keyword-path relevance score equals the sum, over
query keywords of length ≥ 2, of 3 for a keyword occurring in the title,
plus 2 for a keyword occurring in the truthy summary, plus 1 for a
keyword occurring in the concatenation of title, summary and the
500-character content prefix. -/
theorem claim6_keyword_score_amended (query : String) (doc : MDoc) :
    calculateKeywordScore query doc = keywordScoreAmended query doc := by
  simp only [calculateKeywordScore, keywordScoreAmended]
  apply foldl_eq_of_step
  intro a s
  by_cases h1 : s.data.length < 2
  · rw [if_pos h1, if_pos h1]
  · rw [if_neg h1, if_neg h1]
    split_ifs <;> ring

/-! ### Claims about hybrid fusion -/

/-- C10: no document id appears twice in the fused output, and every
fused entry's stored payload carries the (truthy) document id under
which it is keyed — a result with no (or a falsy) document id never
reaches the output. -/
theorem claim10_fusion_dedup (vres : List VRes) (kres : List KRes) (k : ℕ)
    (kw vw : ℚ) :
    ((hybridSearch vres kres k kw vw).map FEntry.docId).Nodup ∧
    ∀ e ∈ hybridSearch vres kres k kw vw,
      truthyId (infoDocId e.info) = some e.docId := by
  have hkeys : ((procKw kres (procVec 1 vres [])).map Prod.fst).Nodup :=
    procKw_nodup_keys _ _ (procVec_nodup_keys _ _ _ (by simp))
  have hok : ∀ p ∈ procKw kres (procVec 1 vres []), entryOk p :=
    procKw_entryOk _ _ (procVec_entryOk _ _ _ (by intro p hp; cases hp))
  have hbody : hybridSearch vres kres k kw vw =
      reindexFrom 1 ((sortDescBy (fun e : FEntry => e.hybridScore)
        ((procKw kres (procVec 1 vres [])).map (fun p =>
          (⟨p.1, p.2.info, p.2.vScore * vw + p.2.kScore * kw,
            infoIndex p.2.info⟩ : FEntry)))).take k) := rfl
  constructor
  · rw [hbody, reindexFrom_map_docId]
    have hsub : List.Sublist
        (((sortDescBy (fun e : FEntry => e.hybridScore)
          ((procKw kres (procVec 1 vres [])).map (fun p =>
            (⟨p.1, p.2.info, p.2.vScore * vw + p.2.kScore * kw,
              infoIndex p.2.info⟩ : FEntry)))).take k).map FEntry.docId)
        ((sortDescBy (fun e : FEntry => e.hybridScore)
          ((procKw kres (procVec 1 vres [])).map (fun p =>
            (⟨p.1, p.2.info, p.2.vScore * vw + p.2.kScore * kw,
              infoIndex p.2.info⟩ : FEntry)))).map FEntry.docId) :=
      (List.take_sublist _ _).map _
    refine hsub.nodup ?_
    have hperm := (sortDescBy_perm (fun e : FEntry => e.hybridScore)
      ((procKw kres (procVec 1 vres [])).map (fun p =>
        (⟨p.1, p.2.info, p.2.vScore * vw + p.2.kScore * kw,
          infoIndex p.2.info⟩ : FEntry)))).map FEntry.docId
    refine hperm.nodup_iff.mpr ?_
    rw [List.map_map]
    exact hkeys
  · intro e he
    rw [hbody] at he
    rcases reindexFrom_proj _ _ _ he with ⟨e0, he0, hid, _, hinfo⟩
    have he0' := List.take_subset _ _ he0
    have he0'' := (sortDescBy_perm (fun e : FEntry => e.hybridScore) _).mem_iff.mp he0'
    rcases List.mem_map.mp he0'' with ⟨p, hp, hfe⟩
    have hpok := hok p hp
    rw [hid, hinfo, ← hfe]
    simpa [entryOk] using hpok

/-- C5: under default weights, every fused entry's hybrid score is
`vScore×0.7 + kScore×0.3` where `vScore` is `1−(rank−1)×0.1` for a
vector-path hit at 1-based rank `rank` (0 when absent, with no
clamping — the formula is negative for ranks beyond 11) and `kScore` is
the raw keyword score over 10 (0 when absent); the output is sorted
descending by hybrid score, truncated to `k`, and re-indexed from 1.
The hypotheses say no (truthy) document id repeats within either input
list. -/
theorem claim5_fusion_scores (vres : List VRes) (kres : List KRes) (k : ℕ)
    (hv : (vIds vres).Nodup) (hk : (kIds kres).Nodup) :
    (∀ e ∈ hybridSearch vres kres k (3/10) (7/10),
        e.hybridScore
          = vScoreSpec vres e.docId * (7/10) + kScoreSpec kres e.docId * (3/10)) ∧
    ((hybridSearch vres kres k (3/10) (7/10)).map FEntry.hybridScore).Pairwise
      (fun a b => b ≤ a) ∧
    (hybridSearch vres kres k (3/10) (7/10)).length
      = min k (procKw kres (procVec 1 vres [])).length ∧
    (hybridSearch vres kres k (3/10) (7/10)).map FEntry.index
      = List.range' 1 (hybridSearch vres kres k (3/10) (7/10)).length ∧
    (∀ r : ℕ, 11 < r → vecRankScore r < 0) := by
  have hbody : hybridSearch vres kres k (3/10) (7/10) =
      reindexFrom 1 ((sortDescBy (fun e : FEntry => e.hybridScore)
        ((procKw kres (procVec 1 vres [])).map (fun p =>
          (⟨p.1, p.2.info, p.2.vScore * (7/10) + p.2.kScore * (3/10),
            infoIndex p.2.info⟩ : FEntry)))).take k) := rfl
  have hkeys : ((procKw kres (procVec 1 vres [])).map Prod.fst).Nodup :=
    procKw_nodup_keys _ _ (procVec_nodup_keys _ _ _ (by simp))
  refine ⟨?_, ?_, ?_, ?_, ?_⟩
  · intro e he
    rw [hbody] at he
    rcases reindexFrom_proj _ _ _ he with ⟨e0, he0, hid, hsc, _⟩
    have he0' := List.take_subset _ _ he0
    have he0'' := (sortDescBy_perm (fun e : FEntry => e.hybridScore) _).mem_iff.mp he0'
    rcases List.mem_map.mp he0'' with ⟨p, hp, hfe⟩
    have hlook : dictGet (procKw kres (procVec 1 vres [])) p.1 = some p.2 :=
      dictGet_of_mem _ _ _ hkeys hp
    rw [procKw_dictGet _ _ _ hk] at hlook
    rw [procVec_dictGet _ _ _ _ hv] at hlook
    have hid' : e.docId = p.1 := by rw [hid, ← hfe]
    have hsc' : e.hybridScore = p.2.vScore * (7/10) + p.2.kScore * (3/10) := by
      rw [hsc, ← hfe]
    rw [hid', hsc']
    cases hkf : kwFirst p.1 kres with
    | some r =>
        cases hvf : vecFirstFrom p.1 1 vres with
        | some rv =>
            rw [hkf, hvf] at hlook
            simp only [dictGet, List.find?, Option.map_none'] at hlook
            have hp2 : p.2 = ⟨vecRankScore rv.1, r.score / 10, Sum.inl rv⟩ :=
              (Option.some.inj hlook).symm
            rw [hp2]
            simp only [vScoreSpec, kScoreSpec, vecRankFrom_eq_first, hvf, hkf,
              Option.map_some', vecRankScore]
        | none =>
            rw [hkf, hvf] at hlook
            simp only [dictGet, List.find?, Option.map_none'] at hlook
            have hp2 : p.2 = ⟨0, r.score / 10, Sum.inr r⟩ :=
              (Option.some.inj hlook).symm
            rw [hp2]
            simp only [vScoreSpec, kScoreSpec, vecRankFrom_eq_first, hvf, hkf,
              Option.map_none']
    | none =>
        cases hvf : vecFirstFrom p.1 1 vres with
        | some rv =>
            rw [hkf, hvf] at hlook
            simp only [] at hlook
            have hp2 : p.2 = ⟨vecRankScore rv.1, 0, Sum.inl rv⟩ :=
              (Option.some.inj hlook).symm
            rw [hp2]
            simp only [vScoreSpec, kScoreSpec, vecRankFrom_eq_first, hvf, hkf,
              Option.map_some', vecRankScore]
        | none =>
            rw [hkf, hvf] at hlook
            simp [dictGet, List.find?] at hlook
  · rw [hbody, reindexFrom_map_score]
    have hsorted := sortDescBy_pairwise (fun e : FEntry => e.hybridScore)
      ((procKw kres (procVec 1 vres [])).map (fun p =>
        (⟨p.1, p.2.info, p.2.vScore * (7/10) + p.2.kScore * (3/10),
          infoIndex p.2.info⟩ : FEntry)))
    have htake := hsorted.sublist (List.take_sublist k _)
    exact (List.pairwise_map).mpr htake
  · rw [hbody, reindexFrom_length, List.length_take]
    congr 1
    rw [(sortDescBy_perm _ _).length_eq, List.length_map]
  · rw [hbody, reindexFrom_map_index, reindexFrom_length]
  · intro r hr
    have hr12 : (12 : ℚ) ≤ (r : ℚ) := by exact_mod_cast hr
    simp only [vecRankScore]
    linarith

/-- Witness for the fusion-score claim at a concrete input. -/
theorem claim5_fusion_scores_witness :
    (∀ e ∈ hybridSearch vresW kresW 2 (3/10) (7/10),
        e.hybridScore
          = vScoreSpec vresW e.docId * (7/10) + kScoreSpec kresW e.docId * (3/10)) ∧
    ((hybridSearch vresW kresW 2 (3/10) (7/10)).map FEntry.hybridScore).Pairwise
      (fun a b => b ≤ a) ∧
    (hybridSearch vresW kresW 2 (3/10) (7/10)).length
      = min 2 (procKw kresW (procVec 1 vresW [])).length ∧
    (hybridSearch vresW kresW 2 (3/10) (7/10)).map FEntry.index
      = List.range' 1 (hybridSearch vresW kresW 2 (3/10) (7/10)).length ∧
    (∀ r : ℕ, 11 < r → vecRankScore r < 0) :=
  claim5_fusion_scores vresW kresW 2 (by with_unfolding_all decide)
    (by with_unfolding_all decide)

/-! ### Helper lemmas: event streams -/

theorem cbcAux_true (l : List SEvent) : cbcAux true l = true := by
  induction l with
  | nil => rfl
  | cons e es ih => cases e <;> simp [cbcAux, ih]

theorem filter_isTerminal_map_chunk (ts : List String) :
    (ts.map SEvent.chunk).filter isTerminalEv = [] := by
  induction ts with
  | nil => rfl
  | cons t rest ih => simp [isTerminalEv, ih]

theorem filter_isError_map_chunk (ts : List String) :
    (ts.map SEvent.chunk).filter isErrorEv = [] := by
  induction ts with
  | nil => rfl
  | cons t rest ih => simp [isErrorEv, ih]

theorem chunkPayloads_map_chunk (ts : List String) :
    chunkPayloads (ts.map SEvent.chunk) = ts := by
  induction ts with
  | nil => rfl
  | cons t rest ih => simp [chunkPayloads] at ih ⊢; exact ih

theorem finalAnswers_map_chunk (ts : List String) :
    finalAnswers (ts.map SEvent.chunk) = [] := by
  induction ts with
  | nil => rfl
  | cons t rest ih => simp [finalAnswers, ih]

/-! ### Claims about the streaming protocols -/

/-- C3: on the gating path (maximum present relevance score below the
0.4 threshold, or no retrieved chunks), the document pipeline emits
exactly an empty citations event followed by a final event carrying the
fixed no-relevant-content message with empty citations; no chunk event
is emitted, and the output does not depend on the LLM token stream (no
language-model call is made). -/
theorem claim3_gated_empty (rs : List RRes) (toks : List String)
    (h : maxScoreOf rs < strictThreshold ∨ rs = []) :
    streamQuery rs toks = [SEvent.citations [], SEvent.final noRelevantMsg []] ∧
    chunkPayloads (streamQuery rs toks) = [] ∧
    (∀ toks', streamQuery rs toks' = streamQuery rs toks) := by
  have h1 : ∀ ts : List String,
      streamQuery rs ts = [SEvent.citations [], SEvent.final noRelevantMsg []] := by
    intro ts
    simp only [streamQuery, if_pos h]
  exact ⟨h1 toks, by rw [h1 toks]; rfl, fun toks' => by rw [h1 toks', h1 toks]⟩

/-- Witness for the gating claim: an empty retrieval with a non-empty
token stream. -/
theorem claim3_gated_empty_witness :
    streamQuery [] ["hi"] = [SEvent.citations [], SEvent.final noRelevantMsg []] ∧
    chunkPayloads (streamQuery [] ["hi"]) = [] ∧
    (∀ toks', streamQuery [] toks' = streamQuery [] ["hi"]) :=
  claim3_gated_empty [] ["hi"] (Or.inr rfl)

/-- C1 (amended): in the document pipeline the citations event precedes
every chunk event and exactly one terminal event is emitted; in the
table pipeline exactly one terminal event (a final, never an error) is
emitted, but the first event of every request is a progress chunk, so
chunk events precede the citations event there. -/
theorem claim1_stream_ordering_amended :
    (∀ (rs : List RRes) (toks : List String),
        citationsBeforeChunks (streamQuery rs toks) = true ∧
        terminalCount (streamQuery rs toks) = 1) ∧
    (∀ (parse : String → Option ℚ) (fmt : ℚ → String)
        (jsonLoads : String → Option TablePlan) (inp : TInput),
        (tableStream parse fmt jsonLoads inp).head?
          = some (SEvent.chunk "正在分析表格数据...") ∧
        terminalCount (tableStream parse fmt jsonLoads inp) = 1 ∧
        errorCount (tableStream parse fmt jsonLoads inp) = 0) := by
  constructor
  · intro rs toks
    by_cases h : maxScoreOf rs < strictThreshold ∨ rs = []
    · simp only [streamQuery, if_pos h]
      exact ⟨rfl, rfl⟩
    · simp only [streamQuery, if_neg h]
      refine ⟨?_, ?_⟩
      · show cbcAux true _ = true
        exact cbcAux_true _
      · simp [terminalCount, List.filter_append, filter_isTerminal_map_chunk,
          isTerminalEv]
  · intro parse fmt jsonLoads inp
    refine ⟨rfl, ?_⟩
    simp only [tableStream]
    by_cases h1 : inp.dataSources = []
    · simp [h1, terminalCount, errorCount, isTerminalEv, isErrorEv]
    · simp only [h1, if_false]
      by_cases h2 : mkSchemas inp.dataSources = []
      · simp [h2, terminalCount, errorCount, isTerminalEv, isErrorEv]
      · simp only [h2, if_false]
        cases ha : inp.analysis with
        | error e =>
            simp [terminalCount, errorCount, isTerminalEv, isErrorEv]
        | ok t =>
            by_cases h3 : (mkSchemas inp.dataSources).filterMap
                (processSchema parse fmt inp.dataSources
                  (sanitizePlan (buildPlan jsonLoads t))) = []
            · simp [h3, terminalCount, errorCount, isTerminalEv, isErrorEv]
            · simp only [h3, if_false]
              cases hok : inp.streamOk
              · simp [terminalCount, errorCount, List.filter_append,
                  filter_isTerminal_map_chunk, filter_isError_map_chunk,
                  isTerminalEv, isErrorEv]
              · simp [terminalCount, errorCount, List.filter_append,
                  filter_isTerminal_map_chunk, filter_isError_map_chunk,
                  isTerminalEv, isErrorEv]

/-- C1 (counterexample): a table-pipeline request with no data sources
emits a chunk event that no citations event precedes (no citations event
is emitted at all), so the claimed citations-before-chunks ordering
fails on the table pipeline. -/
theorem claim1_stream_ordering_counterexample :
    tableStream parseDec fmtW jsonNone tinEmpty =
      [SEvent.chunk "正在分析表格数据...", SEvent.chunk "该知识库没有数据源。",
       SEvent.final "该知识库没有数据源，请先添加数据源。" []] ∧
    citationsBeforeChunks (tableStream parseDec fmtW jsonNone tinEmpty) = false := by
  constructor
  · rfl
  · rfl

theorem chunkPayloads_append (l l' : List SEvent) :
    chunkPayloads (l ++ l') = chunkPayloads l ++ chunkPayloads l' := by
  simp [chunkPayloads]

theorem finalAnswers_append (l l' : List SEvent) :
    finalAnswers (l ++ l') = finalAnswers l ++ finalAnswers l' := by
  simp [finalAnswers]

theorem chunkPayloads_cons_citations (cs : List Citation) (l : List SEvent) :
    chunkPayloads (SEvent.citations cs :: l) = chunkPayloads l := by
  simp [chunkPayloads]

theorem chunkPayloads_cons_chunk (s : String) (l : List SEvent) :
    chunkPayloads (SEvent.chunk s :: l) = s :: chunkPayloads l := by
  simp [chunkPayloads]

theorem chunkPayloads_cons_final (a : String) (cs : List Citation) (l : List SEvent) :
    chunkPayloads (SEvent.final a cs :: l) = chunkPayloads l := by
  simp [chunkPayloads]

theorem finalAnswers_cons_citations (cs : List Citation) (l : List SEvent) :
    finalAnswers (SEvent.citations cs :: l) = finalAnswers l := by
  simp [finalAnswers]

theorem finalAnswers_cons_chunk (s : String) (l : List SEvent) :
    finalAnswers (SEvent.chunk s :: l) = finalAnswers l := by
  simp [finalAnswers]

theorem finalAnswers_cons_final (a : String) (cs : List Citation) (l : List SEvent) :
    finalAnswers (SEvent.final a cs :: l) = a :: finalAnswers l := by
  simp [finalAnswers]

theorem chunkPayloads_nil : chunkPayloads [] = [] := rfl

theorem finalAnswers_nil : finalAnswers [] = [] := rfl

/-- C2 (amended): in the document pipeline, off the gating path, the
final answer is the exact concatenation of all prior chunk payloads; in
the table pipeline the initial progress chunk is excluded from the
answer — on the main path with a successfully streamed non-blank
answer, the final answer equals the concatenation of the chunk payloads
emitted after that first chunk. -/
theorem claim2_final_concat_amended :
    (∀ (rs : List RRes) (toks : List String),
        ¬ (maxScoreOf rs < strictThreshold ∨ rs = []) →
        finalAnswers (streamQuery rs toks)
          = [strConcat (chunkPayloads (streamQuery rs toks))]) ∧
    (∀ (parse : String → Option ℚ) (fmt : ℚ → String)
        (jsonLoads : String → Option TablePlan) (inp : TInput) (t : String),
        inp.dataSources ≠ [] →
        mkSchemas inp.dataSources ≠ [] →
        inp.analysis = Except.ok t →
        (mkSchemas inp.dataSources).filterMap
          (processSchema parse fmt inp.dataSources
            (sanitizePlan (buildPlan jsonLoads t))) ≠ [] →
        inp.streamOk = true →
        strTrim (strConcat (inp.streamToks.filter (fun s => s ≠ ""))) ≠ "" →
        finalAnswers (tableStream parse fmt jsonLoads inp)
          = [strConcat (chunkPayloads ((tableStream parse fmt jsonLoads inp).drop 1))]) := by
  constructor
  · intro rs toks h
    simp only [streamQuery, if_neg h]
    rw [finalAnswers_cons_citations, finalAnswers_append, finalAnswers_map_chunk,
      chunkPayloads_cons_citations, chunkPayloads_append, chunkPayloads_map_chunk]
    simp [finalAnswers_cons_final, finalAnswers_nil, chunkPayloads_cons_final,
      chunkPayloads_nil]
  · intro parse fmt jsonLoads inp t h1 h2 ha h3 hok hne
    have htne : inp.streamToks.filter (fun s => s ≠ "") ≠ [] := by
      intro hh
      exact hne (by rw [hh]; rfl)
    have hevs : tableStream parse fmt jsonLoads inp =
        SEvent.chunk "正在分析表格数据..." ::
          ((inp.streamToks.filter (fun s => s ≠ "")).map SEvent.chunk ++
            [SEvent.citations (mkTableCitations
              ((mkSchemas inp.dataSources).filterMap
                (processSchema parse fmt inp.dataSources
                  (sanitizePlan (buildPlan jsonLoads t))))),
             SEvent.final (strConcat (inp.streamToks.filter (fun s => s ≠ "")))
              (mkTableCitations
                ((mkSchemas inp.dataSources).filterMap
                  (processSchema parse fmt inp.dataSources
                    (sanitizePlan (buildPlan jsonLoads t)))))]) := by
      simp only [tableStream, if_neg h1, if_neg h2, ha, if_neg h3, hok, if_true,
        if_pos htne, if_neg hne]
    rw [hevs]
    rw [List.drop_one]
    simp only [List.tail_cons, finalAnswers_cons_chunk, finalAnswers_append,
      finalAnswers_map_chunk, finalAnswers_cons_citations, finalAnswers_cons_final,
      chunkPayloads_append, chunkPayloads_map_chunk, chunkPayloads_cons_citations,
      chunkPayloads_cons_final]
    simp [finalAnswers_nil, chunkPayloads_nil]

/-- C2 (counterexample): on the no-data-sources table path the final
answer differs from the concatenation of the prior chunk payloads (the
progress and notice chunks are not part of the answer). -/
theorem claim2_final_concat_counterexample :
    finalAnswers (tableStream parseDec fmtW jsonNone tinEmpty)
      = ["该知识库没有数据源，请先添加数据源。"] ∧
    strConcat (chunkPayloads (tableStream parseDec fmtW jsonNone tinEmpty))
      = "正在分析表格数据...该知识库没有数据源。" ∧
    finalAnswers (tableStream parseDec fmtW jsonNone tinEmpty)
      ≠ [strConcat (chunkPayloads (tableStream parseDec fmtW jsonNone tinEmpty))] := by
  refine ⟨rfl, rfl, ?_⟩
  decide

/-- Witness for the amended concatenation claim at concrete inputs on
both pipelines. -/
theorem claim2_final_concat_amended_witness :
    finalAnswers (streamQuery [rresW] ["ab", "cd"])
      = [strConcat (chunkPayloads (streamQuery [rresW] ["ab", "cd"]))] ∧
    finalAnswers (tableStream parseDec fmtW jsonNone tinMain)
      = [strConcat (chunkPayloads ((tableStream parseDec fmtW jsonNone tinMain).drop 1))] :=
  ⟨claim2_final_concat_amended.1 [rresW] ["ab", "cd"] (by with_unfolding_all decide),
   claim2_final_concat_amended.2 parseDec fmtW jsonNone tinMain "PLAN"
     (by decide) (by decide) rfl (by decide) rfl (by decide)⟩

/-! ### Claims about retrieval and reranking -/

theorem map_congr_mem (f g : α → β) (l : List α) (h : ∀ a ∈ l, f a = g a) :
    l.map f = l.map g := by
  induction l with
  | nil => rfl
  | cons a rest ih =>
      simp only [List.map_cons, h a (List.mem_cons_self a rest)]
      rw [ih (fun x hx => h x (List.mem_cons_of_mem a hx))]

/-- C4: when the cross-encoder strategy fails (`none` oracle reply covers
a missing dependency, a load failure on every device, and a `predict`
exception) and the LLM strategy fails as well (no LLM configured, or
every per-chunk scoring call raises — each failing chunk falls back to
the neutral 5.0, and the stable sort leaves an all-5.0 list unchanged),
the reranker returns the first `topK` chunks of the input unchanged, in
their original order; by construction it is a total function, so no
exception reaches the caller. -/
theorem claim4_rerank_noop (bge : String → List LCDoc → Option (List ℚ))
    (llmO : Option (String → Option ℚ)) (query : String) (docs : List LCDoc)
    (topK : ℕ)
    (hbge : bge query docs = none)
    (hllm : ∀ f, llmO = some f → ∀ d ∈ docs, f (scorePrompt query d) = none) :
    rerank bge llmO query docs topK = docs.take topK := by
  simp only [rerank, hbge]
  cases llmO with
  | none => rfl
  | some f =>
      have hsc : docs.map (fun d => (llmScoreOf f query d, d))
          = docs.map (fun d => ((5 : ℚ), d)) := by
        apply map_congr_mem
        intro d hd
        simp [llmScoreOf, hllm f rfl d hd]
      simp only [hsc]
      rw [sortDescBy_const_key _ 5 _ (by
        intro p hp
        rcases List.mem_map.mp hp with ⟨d, _, rfl⟩
        rfl)]
      rw [← List.map_take]
      simp [List.map_map, Function.comp]

/-- Witness for the rerank no-op claim: both strategies fail on three
concrete documents. -/
theorem claim4_rerank_noop_witness :
    rerank (fun _ _ => none) (some (fun _ => none)) "q" docsW 2 = docsW.take 2 :=
  claim4_rerank_noop _ _ _ _ _ rfl (fun f hf d _ => by cases hf; rfl)

theorem rerank_mem (bge : String → List LCDoc → Option (List ℚ))
    (llmO : Option (String → Option ℚ)) (query : String) (docs : List LCDoc)
    (topK : ℕ) : ∀ d ∈ rerank bge llmO query docs topK, d ∈ docs := by
  intro d hd
  unfold rerank at hd
  cases hbge : bge query docs with
  | some scores =>
      simp only [hbge] at hd
      rcases List.mem_map.mp hd with ⟨p, hp, rfl⟩
      have hp' := List.take_subset _ _ hp
      have hp'' := (sortDescBy_perm (fun q : ℚ × LCDoc => q.1) _).mem_iff.mp hp'
      exact (List.of_mem_zip hp'').2
  | none =>
      simp only [hbge] at hd
      cases llmO with
      | none => exact List.take_subset _ _ hd
      | some f =>
          simp only at hd
          rcases List.mem_map.mp hd with ⟨p, hp, rfl⟩
          have hp' := List.take_subset _ _ hp
          have hp'' := (sortDescBy_perm (fun q : ℚ × LCDoc => q.1) _).mem_iff.mp hp'
          rcases List.mem_map.mp hp'' with ⟨d0, hd0, rfl⟩
          exact hd0

/-- C9: with reranking enabled, a truthy `rerank_k` and a configured
score threshold, `retrieve` consults the index only at
`initial_k = max(k, rerank_k*3)` (two search oracles agreeing there give
identical outputs), and every chunk below the threshold is removed
before reranking: no chunk of the pre-rerank candidate list, nor of the
final output, carries a score below the threshold. -/
theorem claim9_retrieve_overfetch_threshold
    (search search' : ℕ → Option String → List (LCDoc × Option ℚ))
    (bge : String → List LCDoc → Option (List ℚ))
    (llmO : Option (String → Option ℚ))
    (query : String) (k : ℕ) (docType : Option String) (r : ℕ) (t : ℚ)
    (hr : r ≠ 0)
    (hagree : search (max k (r * 3)) (buildFilter docType)
        = search' (max k (r * 3)) (buildFilter docType)) :
    retrieve search bge llmO true (some t) query k docType (some r)
      = retrieve search' bge llmO true (some t) query k docType (some r) ∧
    (∀ d ∈ threshFilter (some t) (search (max k (r * 3)) (buildFilter docType)),
        ∀ s, d.score = some s → t ≤ s) ∧
    (∀ d ∈ retrieve search bge llmO true (some t) query k docType (some r),
        ∀ s, d.score = some s → t ≤ s) := by
  have hcond : (true = true ∧ r ≠ 0) := ⟨rfl, hr⟩
  have hthresh : ∀ d ∈ threshFilter (some t) (search (max k (r * 3)) (buildFilter docType)),
      ∀ s, d.score = some s → t ≤ s := by
    intro d hd s hs
    rcases List.mem_filterMap.mp hd with ⟨p, _, hp⟩
    rcases p with ⟨doc, sc⟩
    cases sc with
    | none =>
        simp only at hp
        cases hp
        simp at hs
    | some sv =>
        simp only at hp
        by_cases hlt : sv < t
        · rw [if_pos hlt] at hp
          cases hp
        · rw [if_neg hlt] at hp
          cases hp
          simp only at hs
          cases hs
          exact le_of_not_lt hlt
  refine ⟨?_, hthresh, ?_⟩
  · simp [retrieve, hr, hagree]
  · intro d hd s hs
    simp only [retrieve, hcond, if_pos, if_neg hr] at hd
    simp only [eq_self_iff_true, true_and, ne_eq, hr, not_false_iff, if_true] at hd
    by_cases hlen :
        r < (threshFilter (some t) (search (max k (r * 3)) (buildFilter docType))).length
    · rw [if_pos hlen] at hd
      have hmem := rerank_mem bge llmO query _ r d (List.take_subset _ _ hd)
      exact hthresh d hmem s hs
    · rw [if_neg hlen] at hd
      exact hthresh d (List.take_subset _ _ hd) s hs

/-- Witness for the retrieve claim: a concrete two-chunk index at
threshold 0.4 with `k = 1`, `rerank_k = 1`. -/
theorem claim9_retrieve_overfetch_threshold_witness :
    retrieve searchW (fun _ _ => none) none true (some (2/5)) "q" 1 none (some 1)
      = retrieve searchW (fun _ _ => none) none true (some (2/5)) "q" 1 none (some 1) ∧
    (∀ d ∈ threshFilter (some (2/5)) (searchW (max 1 (1 * 3)) (buildFilter none)),
        ∀ s, d.score = some s → (2/5 : ℚ) ≤ s) ∧
    (∀ d ∈ retrieve searchW (fun _ _ => none) none true (some (2/5)) "q" 1 none (some 1),
        ∀ s, d.score = some s → (2/5 : ℚ) ≤ s) :=
  claim9_retrieve_overfetch_threshold searchW searchW _ _ "q" 1 none 1 (2/5)
    (by decide) rfl

/-! ### Claims about the table-query compiler -/

/-- C7: the filter evaluator's precedence, case by case: `>=`, `<=`,
`>`, `<` compare the parsed cell against the parsed remainder; a bare
`A-B` pattern is an inclusive numeric range; otherwise numeric equality
within 0.01; whenever a `float` parse fails (cell or condition) the
evaluator falls back to the case-insensitive substring text match.  A
row matches a list of conditions exactly when it matches every
condition, and the spec's concrete example passes exactly the
amount-150 row. -/
theorem claim7_filter_precedence :
    (∀ (parse : String → Option ℚ) (cell f : String) (v cn : ℚ),
        cellNumOf parse cell = some cn → strStarts f ">=" = true →
        parse (strTrim (strDrop f 2)) = some v →
        evalCondition parse cell f = decide (v ≤ cn)) ∧
    (∀ (parse : String → Option ℚ) (cell f : String) (v cn : ℚ),
        cellNumOf parse cell = some cn → strStarts f ">=" = false →
        strStarts f "<=" = true →
        parse (strTrim (strDrop f 2)) = some v →
        evalCondition parse cell f = decide (cn ≤ v)) ∧
    (∀ (parse : String → Option ℚ) (cell f : String) (v cn : ℚ),
        cellNumOf parse cell = some cn → strStarts f ">=" = false →
        strStarts f "<=" = false → strStarts f ">" = true →
        parse (strTrim (strDrop f 1)) = some v →
        evalCondition parse cell f = decide (v < cn)) ∧
    (∀ (parse : String → Option ℚ) (cell f : String) (v cn : ℚ),
        cellNumOf parse cell = some cn → strStarts f ">=" = false →
        strStarts f "<=" = false → strStarts f ">" = false →
        strStarts f "<" = true →
        parse (strTrim (strDrop f 1)) = some v →
        evalCondition parse cell f = decide (cn < v)) ∧
    (∀ (parse : String → Option ℚ) (cell f : String) (a b : String) (mn mx cn : ℚ),
        cellNumOf parse cell = some cn → strStarts f ">=" = false →
        strStarts f "<=" = false → strStarts f ">" = false →
        strStarts f "<" = false →
        strHasSub f "-" = true → strStarts f "-" = false →
        strSplitChar '-' f = [a, b] →
        parse (strTrim a) = some mn → parse (strTrim b) = some mx →
        evalCondition parse cell f = decide (mn ≤ cn ∧ cn ≤ mx)) ∧
    (∀ (parse : String → Option ℚ) (cell f : String) (fv cn : ℚ),
        cellNumOf parse cell = some cn → strStarts f ">=" = false →
        strStarts f "<=" = false → strStarts f ">" = false →
        strStarts f "<" = false →
        (strHasSub f "-" = false ∨ strStarts f "-" = true) →
        parse f = some fv →
        evalCondition parse cell f = decide (|cn - fv| ≤ 1 / 100)) ∧
    (∀ (parse : String → Option ℚ) (cell f : String),
        cellNumOf parse cell = none →
        evalCondition parse cell f = textMatch cell f) ∧
    (∀ (parse : String → Option ℚ) (cell f : String) (cn : ℚ),
        cellNumOf parse cell = some cn → strStarts f ">=" = true →
        parse (strTrim (strDrop f 2)) = none →
        evalCondition parse cell f = textMatch cell f) ∧
    (∀ (parse : String → Option ℚ) (cell f : String) (cn : ℚ),
        cellNumOf parse cell = some cn → strStarts f ">=" = false →
        strStarts f "<=" = false → strStarts f ">" = false →
        strStarts f "<" = false →
        (strHasSub f "-" = false ∨ strStarts f "-" = true) →
        parse f = none →
        evalCondition parse cell f = textMatch cell f) ∧
    (∀ (parse : String → Option ℚ) (cols : List String)
        (fs1 fs2 : List (String × String)) (row : TRow),
        rowMatchesFilters parse cols (fs1 ++ fs2) row
          = (rowMatchesFilters parse cols fs1 row
              && rowMatchesFilters parse cols fs2 row)) ∧
    rowsC7.filter (rowMatchesFilters parseDec ["amount"] [("amount", ">100")])
      = [[("amount", "150")]] := by
  have hnotrange : ∀ f : String,
      (strHasSub f "-" = false ∨ strStarts f "-" = true) →
      ¬ (strHasSub f "-" = true ∧ ¬ strStarts f "-" = true) := by
    intro f hf hcontra
    rcases hf with hf | hf
    · rw [hf] at hcontra
      cases hcontra.1
    · exact hcontra.2 hf
  refine ⟨?_, ?_, ?_, ?_, ?_, ?_, ?_, ?_, ?_, ?_, ?_⟩
  · intro parse cell f v cn hc hge hp
    simp [evalCondition, hc, hge, hp]
  · intro parse cell f v cn hc hge hle hp
    simp [evalCondition, hc, hge, hle, hp]
  · intro parse cell f v cn hc hge hle hgt hp
    simp [evalCondition, hc, hge, hle, hgt, hp]
  · intro parse cell f v cn hc hge hle hgt hlt hp
    simp [evalCondition, hc, hge, hle, hgt, hlt, hp]
  · intro parse cell f a b mn mx cn hc hge hle hgt hlt hsub hdash hsplit hmn hmx
    simp [evalCondition, hc, hge, hle, hgt, hlt, hsub, hdash, hsplit, hmn, hmx]
  · intro parse cell f fv cn hc hge hle hgt hlt hrange hp
    rcases hrange with hs | hs
    · simp [evalCondition, hc, hge, hle, hgt, hlt, hs, hp]
    · simp [evalCondition, hc, hge, hle, hgt, hlt, hs, hp]
  · intro parse cell f hc
    simp [evalCondition, hc]
  · intro parse cell f cn hc hge hp
    simp [evalCondition, hc, hge, hp]
  · intro parse cell f cn hc hge hle hgt hlt hrange hp
    rcases hrange with hs | hs
    · simp [evalCondition, hc, hge, hle, hgt, hlt, hs, hp]
    · simp [evalCondition, hc, hge, hle, hgt, hlt, hs, hp]
  · intro parse cols fs1 fs2 row
    simp [rowMatchesFilters, List.all_append]
  · with_unfolding_all decide

/-- Witness for the filter-precedence claim: the `>` case at the spec's
example numbers. -/
theorem claim7_filter_precedence_witness :
    evalCondition parseDec "150" ">100" = decide ((100 : ℚ) < 150) :=
  claim7_filter_precedence.2.2.1 parseDec "150" ">100" 100 150
    (by with_unfolding_all decide) (by decide) (by decide) (by decide)
    (by with_unfolding_all decide)

/-- C8 (amended): table-plan construction never raises and is total:
the first brace span containing no nested braces is extracted and
parsed; when there is no such span, or `json.loads` on it raises, the
result is the empty plan (no filters, no statistic) with the raw model
output as explanation.  (A strict-JSON reply is used as the plan only
when it contains no nested braces — see the counterexample.) -/
theorem claim8_plan_fallback (jsonLoads : String → Option TablePlan) (text : String) :
    (extractFlatSpan text = none → buildPlan jsonLoads text = fallbackPlan text) ∧
    (∀ s, extractFlatSpan text = some s → jsonLoads s = none →
        buildPlan jsonLoads text = fallbackPlan text) ∧
    (∀ s p, extractFlatSpan text = some s → jsonLoads s = some p →
        buildPlan jsonLoads text = p) ∧
    fallbackPlan text = ⟨[], none, none, none, none, none, some text⟩ := by
  refine ⟨?_, ?_, ?_, rfl⟩
  · intro h
    simp [buildPlan, h]
  · intro s hs hj
    simp [buildPlan, hs, hj]
  · intro s p hs hj
    simp [buildPlan, hs, hj]

/-- C8 (counterexample): a parseable strict-JSON reply with a nested
`filters` object is not used as the plan — the regex extracts the inner
brace span instead, so the constructed plan loses the filters. -/
theorem claim8_plan_counterexample :
    jsonCE textCE = some planFullCE ∧
    extractFlatSpan textCE = some "\x7b\"a\": \">1\"\x7d" ∧
    buildPlan jsonCE textCE = planInnerCE ∧
    buildPlan jsonCE textCE ≠ planFullCE := by
  refine ⟨rfl, rfl, rfl, ?_⟩
  decide

/-- Witness for the plan-fallback claim: a reply with no brace span
falls back, and the counterexample reply's extracted span parses. -/
theorem claim8_plan_fallback_witness :
    buildPlan jsonNone "PLAN" = fallbackPlan "PLAN" ∧
    buildPlan jsonCE textCE = planInnerCE :=
  ⟨(claim8_plan_fallback jsonNone "PLAN").1 rfl,
   (claim8_plan_fallback jsonCE textCE).2.2.1 "\x7b\"a\": \">1\"\x7d" planInnerCE rfl rfl⟩
